import Mathlib

/-!
Verification of the structure-preserving text chunker
(`src/utils/chunking_strategy.py`, class `StructuredTextSplitter`).

Text is embedded as `List Char`.  Python's `str.split('\n')`, `str.strip()`,
`str.replace`, the relevant `re` patterns, and the dict operations used by the
splitter are modelled explicitly below, each next to the source construct it
embeds.  Scanning functions are written with an explicit fuel argument equal to
the input length so that everything reduces in the kernel.
-/

namespace Chunking

/-- Shorthand: the characters of a string literal. -/
def cs (s : String) : List Char := s.data

/-- ASCII model of Python's regex class `\s` and of the characters removed by
`str.strip()`: space, tab, newline, carriage return, vertical tab, form feed. -/
def isWsChar (ch : Char) : Bool :=
  ch == ' ' || ch == '\t' || ch == '\n' || ch == '\r' || ch == '\x0b' || ch == '\x0c'

/-- ASCII model of Python's regex class `\w`: letters, digits, underscore. -/
def isWordChar (ch : Char) : Bool :=
  ch.isAlphanum || ch == '_'

/-- Python `text.split('\n')`: always at least one piece; `""` gives `[""]`. -/
def splitLines : List Char → List (List Char)
  | [] => [[]]
  | ch :: rest =>
    if ch = '\n' then
      [] :: splitLines rest
    else
      match splitLines rest with
      | [] => [[ch]]
      | l :: ls => (ch :: l) :: ls

/-- Python `'\n'.join(lines)`, the inverse of `splitLines`. -/
def joinLines : List (List Char) → List Char
  | [] => []
  | [l] => l
  | l :: l' :: ls => l ++ '\n' :: joinLines (l' :: ls)

/-- Python `text.strip()` (both ends, whitespace). -/
def pyStrip (l : List Char) : List Char :=
  ((l.dropWhile isWsChar).reverse.dropWhile isWsChar).reverse

/-- Erase every whitespace character; two texts are equal "modulo whitespace
normalization" when their `stripWs` images agree. -/
def stripWs (l : List Char) : List Char :=
  l.filter (fun ch => !(isWsChar ch))

/-- Number of positions at which `pat` occurs in `s` (substring occurrences,
counted at every starting position). -/
def occCount (pat : List Char) : List Char → Nat
  | [] => if pat = [] then 1 else 0
  | ch :: rest =>
    (if pat.isPrefixOf (ch :: rest) then 1 else 0) + occCount pat rest

/-- Python `pat in s` (substring containment test). -/
def pyContains (pat s : List Char) : Bool :=
  0 < occCount pat s

/-- Python `s.replace(pat, rep)` for a non-empty `pat`: replace every
non-overlapping occurrence, scanning left to right. -/
def replaceAllGo (pat rep : List Char) : Nat → List Char → List Char
  | 0, s => s
  | fuel + 1, s =>
    if pat ≠ [] ∧ pat.isPrefixOf s then
      rep ++ replaceAllGo pat rep fuel (s.drop pat.length)
    else
      match s with
      | [] => []
      | ch :: rest => ch :: replaceAllGo pat rep fuel rest

/-- Python `s.replace(pat, rep)` (entry point, fueled by the length). -/
def replaceAll (s pat rep : List Char) : List Char :=
  replaceAllGo pat rep (s.length + 1) s

/-- Python `l[a:b]` on lists (clamping slice). -/
def pySlice (l : List (List Char)) (a b : Nat) : List (List Char) :=
  (l.take b).drop a

/-- Values stored in chunk metadata dictionaries. -/
inductive MVal where
  | str (s : List Char)
  | int (n : Nat)
  | boolean (b : Bool)
  | strList (l : List (List Char))
  | nil
  deriving DecidableEq, Repr

/-- A Python dict of metadata, as an insertion-ordered association list. -/
abbrev Dict : Type := List (List Char × MVal)

/-- Lookup in a dict (first binding wins; Python dicts have unique keys). -/
def dictGet (d : Dict) (k : List Char) : Option MVal :=
  match d with
  | [] => none
  | (k', v) :: rest => if k' = k then some v else dictGet rest k

/-- Python `d[k] = v`: overwrite in place if present, else append. -/
def dictSet (d : Dict) (k : List Char) (v : MVal) : Dict :=
  match d with
  | [] => [(k, v)]
  | (k', v') :: rest => if k' = k then (k, v) :: rest else (k', v') :: dictSet rest k v

/-- Python `{**d, ...kvs}` and `d.update(kvs)` on a fresh copy: insert the
bindings of `kvs` left to right. -/
def dictUpd (d : Dict) (kvs : Dict) : Dict :=
  match kvs with
  | [] => d
  | (k, v) :: rest => dictUpd (dictSet d k v) rest

/-- The intermediate record built by `_extract_code_blocks` for one fenced
block (`code_blocks[block_id]` in the source). -/
structure CodeBlock where
  language : List Char
  content : List Char
  btype : List Char
  functions : List (List Char)
  classes : List (List Char)
  deriving DecidableEq, Repr

/-- One section produced by `_parse_markdown_structure`. -/
structure Section where
  level : Nat
  title : List Char
  content : List (List Char)
  deriving DecidableEq, Repr

/-- A produced chunk (`langchain Document`): page content plus metadata. -/
structure Chunk where
  content : List Char
  meta : Dict
  deriving DecidableEq, Repr

/-- The configuration fields of `StructuredTextSplitter.__init__`. -/
structure Config where
  chunkSize : Nat
  chunkOverlap : Nat
  codeBlockMaxSize : Nat
  preserveCodeBlocks : Bool
  preserveFunctions : Bool
  preserveMarkdownStructure : Bool
  deriving DecidableEq, Repr

/-- The constructor defaults of `StructuredTextSplitter`. -/
def defaultConfig : Config :=
  { chunkSize := 1500
    chunkOverlap := 200
    codeBlockMaxSize := 3000
    preserveCodeBlocks := true
    preserveFunctions := true
    preserveMarkdownStructure := true }

/-- A node of the Python `ast` tree, keeping exactly the data the splitter
reads: the node kind, `name`, `lineno`, `end_lineno`, and the child list
traversed by `ast.iter_child_nodes`.  `ast.parse` itself is the Python
standard library (external to this repository), so parse results enter the
model as explicit values. -/
inductive PyNode where
  | funcDef (name : List Char) (lineno endLineno : Nat) (children : List PyNode)
  | classDef (name : List Char) (lineno endLineno : Nat) (children : List PyNode)
  | other (children : List PyNode)

/-- The module object returned by a successful `ast.parse`. -/
structure PyModule where
  body : List PyNode

/-- Child list of a node (`ast.iter_child_nodes`). -/
def PyNode.children : PyNode → List PyNode
  | .funcDef _ _ _ l => l
  | .classDef _ _ _ l => l
  | .other l => l

/-- Number of nodes in a forest (fuel bound for the breadth-first walk). -/
def sizeNodes : List PyNode → Nat
  | [] => 0
  | .funcDef _ _ _ cl :: rest => 1 + sizeNodes cl + sizeNodes rest
  | .classDef _ _ _ cl :: rest => 1 + sizeNodes cl + sizeNodes rest
  | .other cl :: rest => 1 + sizeNodes cl + sizeNodes rest

/-- Breadth-first queue traversal, as `ast.walk` performs with its deque. -/
def walkAux : Nat → List PyNode → List PyNode
  | 0, _ => []
  | _ + 1, [] => []
  | fuel + 1, n :: queue => n :: walkAux fuel (queue ++ n.children)

/-- All nodes of the module in `ast.walk` order (module node omitted: it is
neither a `FunctionDef` nor a `ClassDef`, so the splitter ignores it). -/
def walkNodes (m : PyModule) : List PyNode :=
  walkAux (sizeNodes m.body) m.body

/-- Match of `def\s+(\w+)\s*\(` at the head of `s`
(`_extract_function_names`): returns the captured name and the rest of the
input after the match. -/
def matchDefAt (s : List Char) : Option (List Char × List Char) :=
  if (cs "def").isPrefixOf s then
    let t1 := s.drop 3
    let ws := t1.takeWhile isWsChar
    if ws = [] then none
    else
      let t2 := t1.drop ws.length
      let name := t2.takeWhile isWordChar
      if name = [] then none
      else
        let t3 := (t2.drop name.length).dropWhile isWsChar
        match t3 with
        | '(' :: rest => some (name, rest)
        | _ => none
  else none

/-- Match of `class\s+(\w+)\s*(?:\(|:)` at the head of `s`
(`_extract_class_names`). -/
def matchClassAt (s : List Char) : Option (List Char × List Char) :=
  if (cs "class").isPrefixOf s then
    let t1 := s.drop 5
    let ws := t1.takeWhile isWsChar
    if ws = [] then none
    else
      let t2 := t1.drop ws.length
      let name := t2.takeWhile isWordChar
      if name = [] then none
      else
        let t3 := (t2.drop name.length).dropWhile isWsChar
        match t3 with
        | '(' :: rest => some (name, rest)
        | ':' :: rest => some (name, rest)
        | _ => none
  else none

/-- `re.findall` scan: try the matcher at every position, left to right,
resuming after the end of each match. -/
def findAllGo (matcher : List Char → Option (List Char × List Char)) :
    Nat → List Char → List (List Char)
  | 0, _ => []
  | _ + 1, [] => []
  | fuel + 1, ch :: rest =>
    match matcher (ch :: rest) with
    | some (name, after) => name :: findAllGo matcher fuel after
    | none => findAllGo matcher fuel rest

/-- `_extract_function_names(code, language)`: Python-only regex scan. -/
def extractFunctionNames (code language : List Char) : List (List Char) :=
  if language = cs "python" then findAllGo matchDefAt (code.length + 1) code else []

/-- `_extract_class_names(code, language)`: Python-only regex scan. -/
def extractClassNames (code language : List Char) : List (List Char) :=
  if language = cs "python" then findAllGo matchClassAt (code.length + 1) code else []

/-- Scan for the closing fence: the body is everything up to
the first following triple backtick (non-greedy `.*?` under `re.DOTALL`).
Returns the body and the input after the closing fence, if any. -/
def findClose : Nat → List Char → Option (List Char × List Char)
  | 0, _ => none
  | _ + 1, [] => none
  | fuel + 1, ch :: rest =>
    if (cs "```").isPrefixOf (ch :: rest) then
      some ([], (ch :: rest).drop 3)
    else
      match findClose fuel rest with
      | some (body, after) => some (ch :: body, after)
      | none => none

/-- Match of the fenced-block pattern `` ```(\w+)?\n(.*?)``` `` at the head of
the input: triple backtick, maximal optional word run, a newline, then the
non-greedy body up to the first closing triple backtick.  Returns the
language group (`[]` when the tag is absent), the body, and the rest. -/
def matchFenceAt (s : List Char) : Option (List Char × List Char × List Char) :=
  if (cs "```").isPrefixOf s then
    let t1 := s.drop 3
    let lang := t1.takeWhile isWordChar
    match t1.drop lang.length with
    | '\n' :: afterNl =>
      match findClose (afterNl.length + 1) afterNl with
      | some (body, rest) => some (lang, body, rest)
      | none => none
    | _ => none
  else none

/-- The placeholder `__CODE_BLOCK_{n}__` inserted for the n-th block. -/
def placeholderName (n : Nat) : List Char :=
  cs "__CODE_BLOCK_" ++ Nat.toDigits 10 n ++ cs "__"

/-- The `code_blocks[block_id]` record built by `replace_code_block`. -/
def mkCodeBlock (cfg : Config) (lang body : List Char) : CodeBlock :=
  let language := if lang = [] then cs "plain" else lang
  { language := language
    content := body
    btype := cs "fenced"
    functions := if cfg.preserveFunctions then extractFunctionNames body language else []
    classes := if cfg.preserveFunctions then extractClassNames body language else [] }

/-- The `re.sub` scan of `_extract_code_blocks`: at each position try the
fence pattern; on a match emit the next placeholder and continue after the
match, otherwise copy one character. -/
def extractGo (cfg : Config) : Nat → Nat → List Char →
    List Char × List (List Char × CodeBlock)
  | _, _, [] => ([], [])
  | 0, _, s => (s, [])
  | fuel + 1, counter, ch :: rest =>
    match matchFenceAt (ch :: rest) with
    | some (lang, body, after) =>
      let key := placeholderName counter
      let r := extractGo cfg fuel (counter + 1) after
      (key ++ r.1, (key, mkCodeBlock cfg lang body) :: r.2)
    | none =>
      let r := extractGo cfg fuel counter rest
      (ch :: r.1, r.2)

/-- `_extract_code_blocks(text)`: the text with every fenced block replaced
by a fresh placeholder, plus the ordered placeholder-to-block mapping.  The
counter is a function-local starting at 0 on every call. -/
def extractCodeBlocks (cfg : Config) (text : List Char) :
    List Char × List (List Char × CodeBlock) :=
  extractGo cfg (text.length + 1) 0 text

/-- Match of `^(#{1,6})\s+(.+)$` against one (newline-free) line, as
`re.match` computes it: one to six leading hashes, at least one whitespace
character, then a non-empty remainder; when the remainder after the maximal
whitespace run is empty the engine backtracks one whitespace character into
the title group. -/
def headerMatch (line : List Char) : Option (Nat × List Char) :=
  let n := (line.takeWhile (fun ch => ch == '#')).length
  if 1 ≤ n ∧ n ≤ 6 then
    let tail := line.drop n
    let w := (tail.takeWhile isWsChar).length
    if w = 0 then none
    else if w < tail.length then some (n, tail.drop w)
    else if 2 ≤ w then some (n, tail.drop (w - 1))
    else none
  else none

/-- Loop body of `_parse_markdown_structure`: fold the lines, starting a new
section at each header line and otherwise appending the line to the current
section; a section is saved only when its content is non-empty. -/
def parseMDGo (cfg : Config) : List (List Char) → Section → List Section
  | [], cur => if cur.content ≠ [] then [cur] else []
  | line :: rest, cur =>
    match headerMatch line with
    | some (lv, ti) =>
      if cfg.preserveMarkdownStructure then
        (if cur.content ≠ [] then [cur] else []) ++
          parseMDGo cfg rest ⟨lv, ti, [line]⟩
      else
        parseMDGo cfg rest { cur with content := cur.content ++ [line] }
    | none => parseMDGo cfg rest { cur with content := cur.content ++ [line] }

/-- `_parse_markdown_structure(text)`: the initial current section is the
level-0 "Introduction"; the final "Content" branch of the source is kept,
although every line is appended to some section so it never fires. -/
def parseMarkdownStructure (cfg : Config) (text : List Char) : List Section :=
  let lines := splitLines text
  let secs := parseMDGo cfg lines ⟨0, cs "Introduction", []⟩
  if secs = [] ∧ lines ≠ [] then [⟨0, cs "Content", lines⟩] else secs

/-- Match of `__CODE_BLOCK_\d+__` at the head of the input: the literal
prefix, a non-empty greedy digit run, then two underscores. -/
def matchPlaceholderAt (s : List Char) : Option (List Char × List Char) :=
  if (cs "__CODE_BLOCK_").isPrefixOf s then
    let u := s.drop 13
    let d := u.takeWhile Char.isDigit
    if d ≠ [] ∧ (cs "__").isPrefixOf (u.drop d.length) then
      some (cs "__CODE_BLOCK_" ++ d ++ cs "__", (u.drop d.length).drop 2)
    else none
  else none

/-- Scan of `re.split(r'(__CODE_BLOCK_\d+__)', s)`: pieces and separators
interleaved, leftmost-first non-overlapping matches, empty pieces kept. -/
def reSplitGo : Nat → List Char → List Char → List (List Char)
  | 0, acc, s => [acc.reverse ++ s]
  | fuel + 1, acc, s =>
    match s with
    | [] => [acc.reverse]
    | ch :: rest =>
      match matchPlaceholderAt s with
      | some (m, after) => acc.reverse :: m :: reSplitGo fuel [] after
      | none => reSplitGo fuel (ch :: acc) rest

/-- `re.split(r'(__CODE_BLOCK_\d+__)', s)` with the capture group kept. -/
def reSplitPlaceholder (s : List Char) : List (List Char) :=
  reSplitGo (s.length + 1) [] s

/-- Lookup of `code_blocks[part]`. -/
def lookupCB : List (List Char × CodeBlock) → List Char → Option CodeBlock
  | [], _ => none
  | (k, ci) :: rest, part => if k = part then some ci else lookupCB rest part

/-- Metadata attached to a prose chunk in `_chunk_section` (parent metadata
copied by `split_documents`, then updated in place). -/
def textMeta (pm : Dict) (st : List Char) (sl : Nat) : Dict :=
  dictUpd pm
    [(cs "section_title", .str st), (cs "section_level", .int sl),
     (cs "chunk_type", .str (cs "text")), (cs "has_code", .boolean false)]

/-- Metadata of a small (preserved) code-block chunk in `_chunk_section`. -/
def codeMeta (pm : Dict) (st : List Char) (sl : Nat) (ci : CodeBlock) : Dict :=
  dictUpd pm
    [(cs "section_title", .str st), (cs "section_level", .int sl),
     (cs "chunk_type", .str (cs "code")), (cs "language", .str ci.language),
     (cs "has_code", .boolean true), (cs "functions", .strList ci.functions),
     (cs "classes", .strList ci.classes)]

/-- One chunk emitted by the Python branch of `_split_large_code_block` for a
`FunctionDef` or `ClassDef` node found by `ast.walk`; `other` nodes emit
nothing.  The content re-wraps the definition lines in a literal
```` ```python ```` fence. -/
def emitDefChunk (codeLines : List (List Char)) (language : List Char)
    (sec : Section) (pm : Dict) : PyNode → Option Chunk
  | .funcDef name lineno endLineno _ =>
    some
      { content :=
          cs "```python\n" ++
            joinLines (pySlice codeLines (lineno - 1) endLineno) ++ cs "\n```"
        meta :=
          dictUpd pm
            [(cs "section_title", .str sec.title), (cs "section_level", .int sec.level),
             (cs "chunk_type", .str (cs "code_function")), (cs "language", .str language),
             (cs "has_code", .boolean true), (cs "function_name", .str name),
             (cs "class_name", .nil)] }
  | .classDef name lineno endLineno _ =>
    some
      { content :=
          cs "```python\n" ++
            joinLines (pySlice codeLines (lineno - 1) endLineno) ++ cs "\n```"
        meta :=
          dictUpd pm
            [(cs "section_title", .str sec.title), (cs "section_level", .int sec.level),
             (cs "chunk_type", .str (cs "code_class")), (cs "language", .str language),
             (cs "has_code", .boolean true), (cs "function_name", .nil),
             (cs "class_name", .str name)] }
  | .other _ => none

/-- One `code_partial` chunk of the line-count fallback. -/
def codePartialChunk (language : List Char) (sec : Section) (pm : Dict)
    (group : List (List Char)) : Chunk :=
  { content := cs "```" ++ language ++ '\n' :: (joinLines group ++ cs "\n```")
    meta :=
      dictUpd pm
        [(cs "section_title", .str sec.title), (cs "section_level", .int sec.level),
         (cs "chunk_type", .str (cs "code_partial")), (cs "language", .str language),
         (cs "has_code", .boolean true)] }

/-- The `for i in range(0, len(lines), chunk_lines)` loop of the fallback. -/
def fallbackGo (language : List Char) (sec : Section) (pm : Dict)
    (lines : List (List Char)) (step : Nat) : Nat → Nat → List Chunk
  | 0, _ => []
  | fuel + 1, i =>
    if i < lines.length then
      codePartialChunk language sec pm (pySlice lines i (i + step)) ::
        fallbackGo language sec pm lines step fuel (i + step)
    else []

/-- Line-count fallback of `_split_large_code_block`: consecutive groups of
`max(10, chunk_size // 40)` lines. -/
def lineFallback (cfg : Config) (ci : CodeBlock) (sec : Section) (pm : Dict) :
    List Chunk :=
  let lines := splitLines ci.content
  let step := max 10 (cfg.chunkSize / 40)
  fallbackGo ci.language sec pm lines step (lines.length + 1) 0

/-- `_split_large_code_block(code_info, section, parent_metadata)`: for a
`python` block (with `preserve_functions` on) a successful `ast.parse` yields
one chunk per `FunctionDef`/`ClassDef` in `ast.walk` order, an empty result
included; a `SyntaxError` (`pyParse` returning `none`) or a non-Python
language falls back to line-count splitting. -/
def splitLargeCodeBlock (cfg : Config) (pyParse : List Char → Option PyModule)
    (ci : CodeBlock) (sec : Section) (pm : Dict) : List Chunk :=
  if ci.language = cs "python" ∧ cfg.preserveFunctions then
    match pyParse ci.content with
    | some tree =>
      (walkNodes tree).filterMap
        (emitDefChunk (splitLines ci.content) ci.language sec pm)
    | none => lineFallback cfg ci sec pm
  else lineFallback cfg ci sec pm

/-- Flush of `current_text_chunk` in `_chunk_section`: join the buffered
parts, strip, and hand non-empty text to the base splitter, tagging every
resulting document as a `text` chunk. -/
def textFlush (bsplit : List Char → List (List Char)) (sec : Section)
    (pm : Dict) (buffer : List (List Char)) : List Chunk :=
  if buffer = [] then []
  else
    let ts := pyStrip (joinLines buffer)
    if ts = [] then []
    else (bsplit ts).map (fun c => ⟨c, textMeta pm sec.title sec.level⟩)

/-- The part loop of `_chunk_section`: placeholders found in the mapping
flush the prose buffer and become code chunks (split when oversized);
whitespace-only parts are dropped; other parts accumulate in the buffer. -/
def chunkSectionGo (cfg : Config) (pyParse : List Char → Option PyModule)
    (bsplit : List Char → List (List Char)) (sec : Section)
    (cbs : List (List Char × CodeBlock)) (pm : Dict) :
    List (List Char) → List (List Char) → List Chunk
  | [], buffer => textFlush bsplit sec pm buffer
  | part :: rest, buffer =>
    match (if (cs "__CODE_BLOCK_").isPrefixOf part then lookupCB cbs part else none) with
    | some ci =>
      textFlush bsplit sec pm buffer ++
        (if cfg.codeBlockMaxSize < ci.content.length ∧ cfg.preserveCodeBlocks then
          splitLargeCodeBlock cfg pyParse ci sec pm
        else [⟨part, codeMeta pm sec.title sec.level ci⟩]) ++
        chunkSectionGo cfg pyParse bsplit sec cbs pm rest []
    | none =>
      if pyStrip part ≠ [] then
        chunkSectionGo cfg pyParse bsplit sec cbs pm rest (buffer ++ [part])
      else chunkSectionGo cfg pyParse bsplit sec cbs pm rest buffer

/-- `_chunk_section(section, code_blocks, parent_metadata)`. -/
def chunkSection (cfg : Config) (pyParse : List Char → Option PyModule)
    (bsplit : List Char → List (List Char)) (sec : Section)
    (cbs : List (List Char × CodeBlock)) (pm : Dict) : List Chunk :=
  chunkSectionGo cfg pyParse bsplit sec cbs pm
    (reSplitPlaceholder (joinLines sec.content)) []

/-- The fenced replacement text used by `_restore_code_blocks`. -/
def fencedOf (ci : CodeBlock) : List Char :=
  cs "```" ++ ci.language ++ '\n' :: (ci.content ++ cs "\n```")

/-- The restoration loop over `code_blocks.items()` for one chunk's content:
each block id present in the content is replaced everywhere by the rebuilt
fenced block (the inline branch of the source is unreachable, every
extracted block having type `fenced`, but is kept). -/
def restoreContent (cbs : List (List Char × CodeBlock)) (content : List Char) :
    List Char :=
  cbs.foldl
    (fun acc kb =>
      if pyContains kb.1 acc then
        if kb.2.btype = cs "fenced" then replaceAll acc kb.1 (fencedOf kb.2)
        else replaceAll acc kb.1 ('`' :: (kb.2.content ++ ['`']))
      else acc)
    content

/-- Restoration of one chunk: content rewritten, metadata preserved. -/
def restoreOne (cbs : List (List Char × CodeBlock)) (ch : Chunk) : Chunk :=
  ⟨restoreContent cbs ch.content, ch.meta⟩

/-- `_restore_code_blocks(chunks, code_blocks)`. -/
def restoreCodeBlocks (chunks : List Chunk)
    (cbs : List (List Char × CodeBlock)) : List Chunk :=
  chunks.map (restoreOne cbs)

/-- `split_text(text, metadata)`: extract code blocks, parse sections, chunk
each section, restore placeholders.  `pyParse` stands for the external
`ast.parse` and `bsplit` for the external
`RecursiveCharacterTextSplitter`-based `base_splitter`. -/
def splitText (cfg : Config) (pyParse : List Char → Option PyModule)
    (bsplit : List Char → List (List Char)) (text : List Char) (pm : Dict) :
    List Chunk :=
  let pr := extractCodeBlocks cfg text
  let sections := parseMarkdownStructure cfg pr.1
  let chunks := (sections.map (fun s => chunkSection cfg pyParse bsplit s pr.2 pm)).flatten
  restoreCodeBlocks chunks pr.2

/-- Modelled from the spec: the separator ladder of the generic prose
splitter (§4.4), coarsest first; the final empty-string separator is the
hard character split below. -/
def rctsSeparators : List (List Char) :=
  [cs "\n\n", cs "\n", cs ". ", cs " "]

/-- Modelled from the spec: hard character split, the empty-separator last
resort of §4.4. -/
def hardWrap (size : Nat) : Nat → List Char → List (List Char)
  | 0, _ => []
  | _ + 1, [] => []
  | fuel + 1, t => t.take size :: hardWrap size fuel (t.drop size)

/-- Split on every occurrence of a separator, dropping the separators. -/
def splitOnSepGo (sep : List Char) : Nat → List Char → List Char → List (List Char)
  | 0, acc, s => [acc.reverse ++ s]
  | fuel + 1, acc, s =>
    match s with
    | [] => [acc.reverse]
    | ch :: rest =>
      if sep ≠ [] ∧ sep.isPrefixOf s then
        acc.reverse :: splitOnSepGo sep fuel [] (s.drop sep.length)
      else splitOnSepGo sep fuel (ch :: acc) rest

/-- Modelled from the spec: the recursive descent of §4.4 — a text that fits
in `size` is emitted (stripped, as the third-party splitter strips chunk
whitespace); otherwise it is split on the first separator and every oversized
segment recurses with the remaining separators. -/
def rctsGo (size : Nat) : List (List Char) → List Char → List (List Char)
  | [], t =>
    if t.length ≤ size then [pyStrip t] else hardWrap size (t.length + 1) t
  | sep :: rest, t =>
    if t.length ≤ size then [pyStrip t]
    else
      ((splitOnSepGo sep (t.length + 1) [] t).map
        (fun seg => if seg.length ≤ size then [pyStrip seg] else rctsGo size rest seg)).flatten

/-- Copy the last `ov` characters of the previous chunk onto the head of the
next one (§4.4's overlap rule). -/
def addOverlapGo (ov : Nat) : List Char → List (List Char) → List (List Char)
  | _, [] => []
  | prev, c :: rest => (prev.drop (prev.length - ov) ++ c) :: addOverlapGo ov c rest

/-- Modelled from the spec: `self.base_splitter.split_documents`, the
third-party LangChain `RecursiveCharacterTextSplitter` configured in
`__init__`, which is not part of this repository (§4.4 of the spec). -/
def rctsModel (cfg : Config) (t : List Char) : List (List Char) :=
  match rctsGo cfg.chunkSize rctsSeparators t with
  | [] => []
  | c :: rest => c :: addOverlapGo cfg.chunkOverlap c rest

/-- Transcription of one call of `_extract_code_blocks` together with the
instance state it can observe: the method reads the configuration fields,
initializes its local `code_block_counter` to 0, and contains no assignment
to `self`, so the state coming out of the call is the state that went in. -/
def extractCodeBlocksStep (st : Config) (text : List Char) :
    (List Char × List (List Char × CodeBlock)) × Config :=
  (extractGo st (text.length + 1) 0 text, st)

/-- Threading the instance state through a history of earlier extraction
calls on a shared splitter instance. -/
def runCalls (st : Config) (history : List (List Char)) : Config :=
  history.foldl (fun acc u => (extractCodeBlocksStep acc u).2) st

/-- Consecutive groups of `k` lines, as the spec describes the fallback
("divide the block into consecutive groups of `max(10, chunk_size // 40)`
lines each"). -/
def groupsOfGo (k : Nat) : Nat → List (List Char) → List (List (List Char))
  | 0, _ => []
  | fuel + 1, l => if l = [] then [] else l.take k :: groupsOfGo k fuel (l.drop k)

/-- Consecutive groups of `k` lines of a whole list. -/
def groupsOf (k : Nat) (l : List (List Char)) : List (List (List Char)) :=
  groupsOfGo k (l.length + 1) l

/-- Whether a node is a `FunctionDef` or `ClassDef`. -/
def PyNode.isDef : PyNode → Bool
  | .funcDef _ _ _ _ => true
  | .classDef _ _ _ _ => true
  | .other _ => false

/-- Number of top-level function/class definitions of a module
(`module.body`, not the full `ast.walk`). -/
def countTopDefs (m : PyModule) : Nat :=
  m.body.countP PyNode.isDef

/-- The breadth-first walk of a whole forest (with just enough fuel). -/
def walkForest (l : List PyNode) : List PyNode :=
  walkAux (sizeNodes l) l

/-- The oversized-python content of the C2 counterexample: one top-level
function with a nested function, padded past `code_block_max_size` by a
trailing comment (`ast.parse` accepts it; `outer` spans lines 1-4 and
`inner` lines 2-3). -/
def c2body : List Char :=
  cs "def outer():\n    def inner():\n        return 1\n    return inner  # " ++
    List.replicate 3000 'x'

/-- The parse tree `ast.parse` produces for `c2body`, restricted to the data
the splitter reads: `outer` has among its children an `arguments` node, the
nested `FunctionDef inner`, and a `Return` statement. -/
def c2mod : PyModule :=
  ⟨[.funcDef (cs "outer") 1 4
      [.other [], .funcDef (cs "inner") 2 3 [.other [], .other []], .other []]]⟩

/-- The chunk-specific metadata keys the splitter writes (§3 of the spec). -/
def chunkSpecificKeys : List (List Char) :=
  [cs "section_title", cs "section_level", cs "chunk_type", cs "has_code",
   cs "language", cs "functions", cs "classes", cs "function_name",
   cs "class_name"]

/-- A chunk metadata dict is the parent metadata updated with bindings whose
keys are all chunk-specific. -/
def metaShape (pm d : Dict) : Prop :=
  ∃ kvs : Dict, d = dictUpd pm kvs ∧ ∀ kv ∈ kvs, kv.1 ∈ chunkSpecificKeys

/-- The chunks whose metadata carries `chunk_type='code'` (the tag of a
preserved small code block in `_chunk_section`). -/
def isCodeChunk (ch : Chunk) : Bool :=
  decide (dictGet ch.meta (cs "chunk_type") = some (MVal.str (cs "code")))

/-! ### Generic lemmas about occurrence counting -/

theorem occCount_nil (pat : List Char) (h : pat ≠ []) : occCount pat [] = 0 := by
  simp [occCount, h]

theorem occCount_cons (pat : List Char) (ch : Char) (rest : List Char) :
    occCount pat (ch :: rest) =
      (if pat.isPrefixOf (ch :: rest) then 1 else 0) + occCount pat rest := rfl

theorem occCount_cons_zero {pat : List Char} {ch : Char} {rest : List Char}
    (h : occCount pat (ch :: rest) = 0) :
    pat.isPrefixOf (ch :: rest) = false ∧ occCount pat rest = 0 := by
  rw [occCount_cons] at h
  cases hcond : pat.isPrefixOf (ch :: rest) with
  | true => rw [hcond] at h; simp at h
  | false => rw [hcond] at h; simp at h; exact ⟨rfl, h⟩

theorem isPrefixOf_append_left {pat u : List Char} (v : List Char)
    (h : pat.isPrefixOf u) : pat.isPrefixOf (u ++ v) := by
  rw [List.isPrefixOf_iff_prefix] at h ⊢
  exact h.trans (List.prefix_append u v)

theorem occCount_pos {pat : List Char} (x : List Char) {y : List Char}
    (h : pat.isPrefixOf y) : 0 < occCount pat (x ++ y) := by
  induction x with
  | nil =>
    cases y with
    | nil =>
      have : pat = [] := by
        rw [List.isPrefixOf_iff_prefix] at h
        simpa using h
      simp [occCount, this]
    | cons ch rest => simp [occCount_cons, h]
  | cons ch rest ih =>
    rw [List.cons_append, occCount_cons]
    omega

theorem occCount_append_right_zero {pat x y : List Char}
    (h : occCount pat (x ++ y) = 0) : occCount pat y = 0 := by
  induction x with
  | nil => simpa using h
  | cons ch rest ih =>
    rw [List.cons_append] at h
    exact ih (occCount_cons_zero h).2

theorem not_isPrefixOf_of_occCount_zero {pat s : List Char} (hne : pat ≠ [])
    (h : occCount pat s = 0) : pat.isPrefixOf s = false := by
  cases s with
  | nil =>
    cases pat with
    | nil => exact absurd rfl hne
    | cons p ps => simp [List.isPrefixOf]
  | cons ch rest => exact (occCount_cons_zero h).1

/-- A prefix occurrence cannot look across a newline barrier when the
pattern itself contains no newline. -/
theorem isPrefixOf_append_newline {pat w z : List Char} (hnl : '\n' ∉ pat)
    (h : pat.isPrefixOf (w ++ '\n' :: z)) : pat.isPrefixOf w := by
  induction pat generalizing w with
  | nil => simp [List.isPrefixOf]
  | cons p ps ih =>
    cases w with
    | nil =>
      exfalso
      rw [List.nil_append] at h
      simp only [List.isPrefixOf] at h
      rcases Bool.and_eq_true_iff.mp h with ⟨hpa, _⟩
      have hp : p = '\n' := by simpa using hpa
      subst hp
      exact hnl (List.mem_cons_self _ _)
    | cons a w' =>
      rw [List.cons_append] at h
      simp only [List.isPrefixOf] at h ⊢
      rcases Bool.and_eq_true_iff.mp h with ⟨hpa, hrest⟩
      exact Bool.and_eq_true_iff.mpr
        ⟨hpa, ih (fun hm => hnl (List.mem_cons_of_mem p hm)) hrest⟩

/-- Occurrence counting is additive across a newline barrier for patterns
that contain no newline. -/
theorem occCount_append_newline {pat : List Char} (a b : List Char)
    (hne : pat ≠ []) (hnl : '\n' ∉ pat) :
    occCount pat (a ++ '\n' :: b) = occCount pat a + occCount pat b := by
  induction a with
  | nil =>
    rw [List.nil_append, occCount_cons, occCount_nil pat hne]
    have hnp : pat.isPrefixOf ('\n' :: b) = false := by
      cases pat with
      | nil => exact absurd rfl hne
      | cons p ps =>
        simp only [List.isPrefixOf]
        have : (p == '\n') = false := by
          cases hpe : p == '\n' with
          | true =>
            exact absurd (by simp [show p = '\n' by simpa using hpe]) hnl
          | false => rfl
        simp [this]
    simp [hnp]
  | cons ch a' ih =>
    rw [List.cons_append, occCount_cons, occCount_cons, ih]
    have : pat.isPrefixOf (ch :: (a' ++ '\n' :: b)) = pat.isPrefixOf (ch :: a') := by
      cases hp : pat.isPrefixOf (ch :: a') with
      | true =>
        have := isPrefixOf_append_left ('\n' :: b) hp
        rw [List.cons_append] at this
        exact this
      | false =>
        cases hq : pat.isPrefixOf (ch :: (a' ++ '\n' :: b)) with
        | true =>
          rw [show ch :: (a' ++ '\n' :: b) = (ch :: a') ++ '\n' :: b by simp] at hq
          rw [isPrefixOf_append_newline hnl hq] at hp
          exact absurd hp (by simp)
        | false => rfl
    rw [this]
    omega

/-- Two distinct occurrence positions force a count of at least two. -/
theorem occCount_two {pat : List Char} :
    ∀ (u₁ v₁ u₂ v₂ s : List Char), s = u₁ ++ v₁ → s = u₂ ++ v₂ →
      pat.isPrefixOf v₁ → pat.isPrefixOf v₂ → u₁.length < u₂.length →
      2 ≤ occCount pat s := by
  intro u₁
  induction u₁ with
  | nil =>
    intro v₁ u₂ v₂ s h₁ h₂ hp₁ hp₂ hlt
    rw [List.nil_append] at h₁
    subst h₁
    cases u₂ with
    | nil => simp at hlt
    | cons ch u₂' =>
      subst h₂
      rw [List.cons_append, occCount_cons]
      have h1 : pat.isPrefixOf (ch :: (u₂' ++ v₂)) := by
        rw [← List.cons_append]; exact hp₁
      have h2 : 0 < occCount pat (u₂' ++ v₂) := occCount_pos u₂' hp₂
      simp [h1]
      omega
  | cons ch u₁' ih =>
    intro v₁ u₂ v₂ s h₁ h₂ hp₁ hp₂ hlt
    cases u₂ with
    | nil => simp at hlt
    | cons ch₂ u₂' =>
      subst h₁
      have hch : ch₂ = ch := by
        rw [List.cons_append, List.cons_append] at h₂
        exact (List.cons.injEq ch₂ _ ch _).mp h₂.symm |>.1
      subst hch
      have htail : u₁' ++ v₁ = u₂' ++ v₂ := by
        rw [List.cons_append, List.cons_append] at h₂
        exact (List.cons.injEq _ _ _ _).mp h₂ |>.2
      have := ih v₁ u₂' v₂ (u₁' ++ v₁) rfl htail hp₁ hp₂ (by simpa using hlt)
      rw [List.cons_append, occCount_cons]
      omega

theorem occCount_le_append_right (pat x y : List Char) :
    occCount pat y ≤ occCount pat (x ++ y) := by
  induction x with
  | nil => simp
  | cons ch x' ih =>
    rw [List.cons_append, occCount_cons]
    omega

theorem occCount_le_append_left (pat x y : List Char) (hne : pat ≠ []) :
    occCount pat x ≤ occCount pat (x ++ y) := by
  induction x with
  | nil => simp [occCount_nil pat hne]
  | cons ch x' ih =>
    rw [List.cons_append, occCount_cons, occCount_cons]
    have : (if pat.isPrefixOf (ch :: x') then 1 else 0) ≤
        (if pat.isPrefixOf (ch :: (x' ++ y)) then 1 else 0) := by
      cases hp : pat.isPrefixOf (ch :: x') with
      | true =>
        have := isPrefixOf_append_left y hp
        rw [List.cons_append] at this
        simp [this]
      | false => simp
    omega

/-! ### Lines: splitting, joining, and their algebra -/

theorem splitLines_ne_nil (t : List Char) : splitLines t ≠ [] := by
  cases t with
  | nil => simp [splitLines]
  | cons ch rest =>
    rw [splitLines]
    by_cases h : ch = '\n'
    · simp [h]
    · simp only [h, if_false]
      cases splitLines rest with
      | nil => simp
      | cons l ls => simp

theorem joinLines_cons (l : List Char) (ls : List (List Char)) (h : ls ≠ []) :
    joinLines (l :: ls) = l ++ '\n' :: joinLines ls := by
  cases ls with
  | nil => exact absurd rfl h
  | cons l' ls' => rfl

theorem joinLines_splitLines (t : List Char) : joinLines (splitLines t) = t := by
  induction t with
  | nil => rfl
  | cons ch rest ih =>
    by_cases h : ch = '\n'
    · subst h
      have hs : splitLines ('\n' :: rest) = [] :: splitLines rest := by
        rw [splitLines]; simp
      rw [hs, joinLines_cons [] (splitLines rest) (splitLines_ne_nil rest), ih]
      rfl
    · rw [splitLines]
      simp only [h, if_false]
      cases hs : splitLines rest with
      | nil => exact absurd hs (splitLines_ne_nil rest)
      | cons l ls =>
        rw [hs] at ih
        cases ls with
        | nil =>
          simp only [joinLines] at ih ⊢
          rw [ih]
        | cons l₂ ls₂ =>
          rw [joinLines_cons l (l₂ :: ls₂) (by simp)] at ih
          rw [joinLines_cons (ch :: l) (l₂ :: ls₂) (by simp), ← ih]
          rfl

theorem joinLines_append (A B : List (List Char)) (hA : A ≠ []) (hB : B ≠ []) :
    joinLines (A ++ B) = joinLines A ++ '\n' :: joinLines B := by
  induction A with
  | nil => exact absurd rfl hA
  | cons l A' ih =>
    cases A' with
    | nil =>
      rw [List.cons_append, List.nil_append,
        joinLines_cons l B hB]
      rfl
    | cons l₂ A'' =>
      rw [List.cons_append,
        joinLines_cons l ((l₂ :: A'') ++ B) (by simp),
        joinLines_cons l (l₂ :: A'') (by simp),
        ih (by simp)]
      simp

/-- Concatenating the contents of a group decomposition of the lines embeds
each group's joined text as a factor of the joined whole. -/
theorem joinLines_flatten_factor (groups : List (List (List Char))) (g : List (List Char))
    (hg : g ∈ groups) :
    ∃ u v, joinLines groups.flatten = u ++ joinLines g ++ v := by
  induction groups with
  | nil => simp at hg
  | cons g₀ rest ih =>
    rw [List.flatten_cons]
    rcases List.mem_cons.mp hg with heq | hmem
    · subst heq
      by_cases hflat : rest.flatten = []
      · exact ⟨[], [], by simp [hflat]⟩
      · by_cases hg0 : g = []
        · exact ⟨[], joinLines (g ++ rest.flatten), by simp [hg0, joinLines]⟩
        · exact ⟨[], '\n' :: joinLines rest.flatten,
            by rw [joinLines_append g rest.flatten hg0 hflat]; simp⟩
    · rcases ih hmem with ⟨u, v, huv⟩
      by_cases hg0 : g₀ = []
      · exact ⟨u, v, by rw [hg0, List.nil_append]; exact huv⟩
      · by_cases hflat : rest.flatten = []
        · have hgnil : g = [] := by
            have hall := List.flatten_eq_nil_iff.mp hflat
            exact hall g hmem
          exact ⟨joinLines (g₀ ++ rest.flatten), [], by simp [hgnil, joinLines]⟩
        · exact ⟨joinLines g₀ ++ '\n' :: u, v, by
            rw [joinLines_append g₀ rest.flatten hg0 hflat, huv]; simp⟩

/-! ### Whitespace lemmas -/

theorem stripWs_append (x y : List Char) :
    stripWs (x ++ y) = stripWs x ++ stripWs y :=
  List.filter_append ..

theorem stripWs_dropWhileWs (x : List Char) :
    stripWs (x.dropWhile isWsChar) = stripWs x := by
  induction x with
  | nil => rfl
  | cons ch rest ih =>
    by_cases h : isWsChar ch
    · rw [List.dropWhile_cons_of_pos h, ih]
      simp [stripWs, h]
    · rw [List.dropWhile_cons_of_neg h]

theorem stripWs_reverse (x : List Char) :
    stripWs x.reverse = (stripWs x).reverse :=
  List.filter_reverse ..

theorem stripWs_pyStrip (s : List Char) : stripWs (pyStrip s) = stripWs s := by
  rw [pyStrip, stripWs_reverse, stripWs_dropWhileWs, stripWs_reverse,
    List.reverse_reverse, stripWs_dropWhileWs]

theorem stripWs_nil_of_pyStrip_nil {s : List Char} (h : pyStrip s = []) :
    stripWs s = [] := by
  rw [← stripWs_pyStrip, h]
  rfl

theorem pyStrip_length_le (s : List Char) : (pyStrip s).length ≤ s.length := by
  calc (pyStrip s).length
      = ((s.dropWhile isWsChar).reverse.dropWhile isWsChar).length := by
        rw [pyStrip, List.length_reverse]
    _ ≤ (s.dropWhile isWsChar).reverse.length :=
        (List.dropWhile_sublist _).length_le
    _ = (s.dropWhile isWsChar).length := List.length_reverse ..
    _ ≤ s.length := (List.dropWhile_sublist _).length_le

theorem stripWs_joinLines (ls : List (List Char)) :
    stripWs (joinLines ls) = (ls.map stripWs).flatten := by
  induction ls with
  | nil => rfl
  | cons l rest ih =>
    cases rest with
    | nil => simp [joinLines, stripWs]
    | cons l₂ rest₂ =>
      rw [joinLines_cons l (l₂ :: rest₂) (by simp), stripWs_append]
      have : stripWs ('\n' :: joinLines (l₂ :: rest₂)) = stripWs (joinLines (l₂ :: rest₂)) := by
        simp [stripWs, isWsChar]
      rw [this, ih]
      simp

/-! ### Dict lemmas -/

theorem dictGet_cons (kv : List Char × MVal) (rest : Dict) (k : List Char) :
    dictGet (kv :: rest) k = if kv.1 = k then some kv.2 else dictGet rest k := by
  cases kv
  rfl

theorem dictSet_cons (kv : List Char × MVal) (rest : Dict) (k : List Char) (v : MVal) :
    dictSet (kv :: rest) k v =
      if kv.1 = k then (k, v) :: rest else kv :: dictSet rest k v := by
  cases kv
  rfl

theorem dictGet_set_self (d : Dict) (k : List Char) (v : MVal) :
    dictGet (dictSet d k v) k = some v := by
  induction d with
  | nil => simp [dictSet, dictGet]
  | cons kv rest ih =>
    rw [dictSet_cons]
    by_cases h : kv.1 = k
    · simp [h, dictGet_cons]
    · simp only [h, if_false]
      rw [dictGet_cons]
      simp [h, ih]

theorem dictGet_set_ne (d : Dict) (k' k : List Char) (v : MVal) (h : k' ≠ k) :
    dictGet (dictSet d k' v) k = dictGet d k := by
  induction d with
  | nil => simp [dictSet, dictGet_cons, dictGet, h]
  | cons kv rest ih =>
    rw [dictSet_cons]
    by_cases hk : kv.1 = k'
    · rw [if_pos hk, dictGet_cons, dictGet_cons]
      simp [h, hk]
    · rw [if_neg hk, dictGet_cons, dictGet_cons, ih]

theorem dictGet_upd_notmem (d : Dict) (kvs : Dict) (k : List Char)
    (h : ∀ kv ∈ kvs, kv.1 ≠ k) :
    dictGet (dictUpd d kvs) k = dictGet d k := by
  induction kvs generalizing d with
  | nil => rfl
  | cons kv rest ih =>
    rw [dictUpd]
    rw [ih (dictSet d kv.1 kv.2) (fun x hx => h x (List.mem_cons_of_mem kv hx))]
    exact dictGet_set_ne d kv.1 k kv.2 (h kv (List.mem_cons_self ..))

theorem dictGet_upd_last (d : Dict) (kvs : Dict) (k : List Char) (v : MVal)
    (hmem : (k, v) ∈ kvs)
    (hlast : ∀ kv ∈ kvs, kv.1 = k → kv.2 = v) :
    dictGet (dictUpd d kvs) k = some v := by
  induction kvs generalizing d with
  | nil => simp at hmem
  | cons kv rest ih =>
    rw [dictUpd]
    by_cases hrest : ∃ w, (k, w) ∈ rest
    · rcases hrest with ⟨w, hw⟩
      have hwv : w = v := hlast (k, w) (List.mem_cons_of_mem kv hw) rfl
      subst hwv
      exact ih (dictSet d kv.1 kv.2) hw
        (fun x hx hxk => hlast x (List.mem_cons_of_mem kv hx) hxk)
    · have hkv : kv = (k, v) := by
        rcases List.mem_cons.mp hmem with heq | hmemr
        · exact heq.symm
        · exact absurd ⟨v, hmemr⟩ hrest
      subst hkv
      have hnone : ∀ x ∈ rest, x.1 ≠ k := by
        intro x hx hxk
        exact hrest ⟨x.2, by rw [← hxk]; exact hx⟩
      rw [dictGet_upd_notmem _ rest k hnone]
      exact dictGet_set_self d k v

/-! ### Markdown section parsing -/

theorem parseMDGo_no_header (cfg : Config) (lines : List (List Char))
    (h : ∀ l ∈ lines, headerMatch l = none) :
    ∀ lv ti acc, parseMDGo cfg lines ⟨lv, ti, acc⟩ =
      if acc ++ lines = [] then [] else [⟨lv, ti, acc ++ lines⟩] := by
  induction lines with
  | nil =>
    intro lv ti acc
    rw [parseMDGo]
    by_cases hacc : acc = [] <;> simp [hacc]
  | cons line rest ih =>
    intro lv ti acc
    rw [parseMDGo]
    rw [h line (List.mem_cons_self ..)]
    have := ih (fun l hl => h l (List.mem_cons_of_mem line hl)) lv ti (acc ++ [line])
    simp only [Section.mk.injEq] at this ⊢
    rw [this]
    simp

theorem parseMDGo_flatten (cfg : Config) (lines : List (List Char)) :
    ∀ cur, ((parseMDGo cfg lines cur).map Section.content).flatten =
      cur.content ++ lines := by
  induction lines with
  | nil =>
    intro cur
    rw [parseMDGo]
    by_cases hacc : cur.content = [] <;> simp [hacc]
  | cons line rest ih =>
    intro cur
    rw [parseMDGo]
    cases hm : headerMatch line with
    | none =>
      rw [ih]
      simp
    | some p =>
      obtain ⟨lv, ti⟩ := p
      dsimp only
      by_cases hp : cfg.preserveMarkdownStructure
      · rw [if_pos hp, List.map_append, List.flatten_append, ih]
        by_cases hacc : cur.content = [] <;> simp [hacc]
      · rw [if_neg hp, ih]
        simp

theorem parseMDGo_content_ne_nil (cfg : Config) (lines : List (List Char)) :
    ∀ cur s, s ∈ parseMDGo cfg lines cur → s.content ≠ [] := by
  induction lines with
  | nil =>
    intro cur s hs
    rw [parseMDGo] at hs
    by_cases hacc : cur.content ≠ []
    · rw [if_pos hacc] at hs
      rcases List.mem_singleton.mp hs with rfl
      exact hacc
    · rw [if_neg hacc] at hs
      simp at hs
  | cons line rest ih =>
    intro cur s hs
    rw [parseMDGo] at hs
    cases hm : headerMatch line with
    | none =>
      rw [hm] at hs
      exact ih _ s hs
    | some p =>
      rw [hm] at hs
      obtain ⟨lv, ti⟩ := p
      dsimp only at hs
      by_cases hp : cfg.preserveMarkdownStructure
      · rw [if_pos hp] at hs
        rcases List.mem_append.mp hs with hcur | hrec
        · by_cases hacc : cur.content ≠ []
          · rw [if_pos hacc] at hcur
            rcases List.mem_singleton.mp hcur with rfl
            exact hacc
          · rw [if_neg hacc] at hcur
            simp at hcur
        · exact ih _ s hrec
      · rw [if_neg hp] at hs
        exact ih _ s hs

theorem parseMarkdownStructure_eq (cfg : Config) (t : List Char) :
    parseMarkdownStructure cfg t =
      parseMDGo cfg (splitLines t) ⟨0, cs "Introduction", []⟩ := by
  rw [parseMarkdownStructure]
  have hne : parseMDGo cfg (splitLines t) ⟨0, cs "Introduction", []⟩ ≠ [] := by
    intro hnil
    have := parseMDGo_flatten cfg (splitLines t) ⟨0, cs "Introduction", []⟩
    rw [hnil] at this
    exact splitLines_ne_nil t (by simpa using this.symm)
  simp [hne]

theorem parseMarkdownStructure_flatten (cfg : Config) (t : List Char) :
    ((parseMarkdownStructure cfg t).map Section.content).flatten = splitLines t := by
  rw [parseMarkdownStructure_eq, parseMDGo_flatten]
  rfl

theorem parseMarkdownStructure_content_ne_nil (cfg : Config) (t : List Char)
    (s : Section) (hs : s ∈ parseMarkdownStructure cfg t) : s.content ≠ [] := by
  rw [parseMarkdownStructure_eq] at hs
  exact parseMDGo_content_ne_nil cfg (splitLines t) _ s hs

/-- C9: for the empty input document, `split_text` returns zero chunks (and,
the model being a total function, no error is raised), whatever the external
parse function, base splitter and parent metadata are. -/
theorem claim_C9 (pyParse : List Char → Option PyModule)
    (bsplit : List Char → List (List Char)) (pm : Dict) :
    splitText defaultConfig pyParse bsplit [] pm = [] := rfl

/-- C6 counterexample: on the headerless non-empty document "hello" the
Markdown section pass returns a single level-0 section titled
"Introduction", not "Content" as the claim states. -/
theorem claim_C6_counterexample :
    parseMarkdownStructure defaultConfig (cs "hello") =
      [⟨0, cs "Introduction", [cs "hello"]⟩] ∧
    cs "Introduction" ≠ cs "Content" := by
  constructor
  · rfl
  · decide

/-- C6 amended: for every non-empty input with no ATX-header line, the
Markdown section pass returns exactly one section with level 0 covering the
whole text, but its title is "Introduction" (the "Content" branch of the
source is unreachable because every line is appended to the running
section). -/
theorem claim_C6 (t : List Char) (hne : t ≠ [])
    (hnh : ∀ l ∈ splitLines t, headerMatch l = none) :
    parseMarkdownStructure defaultConfig t =
      [⟨0, cs "Introduction", splitLines t⟩] := by
  have _ := hne
  rw [parseMarkdownStructure_eq,
    parseMDGo_no_header defaultConfig (splitLines t) hnh 0 (cs "Introduction") []]
  rw [List.nil_append, if_neg (splitLines_ne_nil t)]

/-- C6 witness: the amended theorem applied to the concrete document
"hello world" of the counterexample family. -/
theorem claim_C6_witness :
    (cs "hello\nworld" ≠ [] ∧
      ∀ l ∈ splitLines (cs "hello\nworld"), headerMatch l = none) ∧
    parseMarkdownStructure defaultConfig (cs "hello\nworld") =
      [⟨0, cs "Introduction", splitLines (cs "hello\nworld")⟩] :=
  ⟨⟨by decide, by decide⟩,
    claim_C6 (cs "hello\nworld") (by decide) (by decide)⟩

/-! ### Restoration -/

theorem restoreContent_of_no_occurrence (cbs : List (List Char × CodeBlock))
    (content : List Char) (h : ∀ kb ∈ cbs, occCount kb.1 content = 0) :
    restoreContent cbs content = content := by
  induction cbs with
  | nil => rfl
  | cons kb rest ih =>
    rw [restoreContent, List.foldl_cons]
    have hocc : occCount kb.1 content = 0 := h kb (List.mem_cons_self ..)
    have hpc : pyContains kb.1 content = false := by
      simp [pyContains, hocc]
    rw [hpc]
    simp only [Bool.false_eq_true, if_false]
    exact ih (fun x hx => h x (List.mem_cons_of_mem kb hx))

/-- C5 counterexample: a chunk whose content is exactly the unmatched
placeholder `__CODE_BLOCK_7__` passes through restoration (with an empty
block mapping) unchanged, so the placeholder is not replaced by the empty
string as the claim states. -/
theorem claim_C5_counterexample :
    restoreCodeBlocks [⟨cs "__CODE_BLOCK_7__", []⟩] [] =
      [⟨cs "__CODE_BLOCK_7__", []⟩] ∧
    cs "__CODE_BLOCK_7__" ≠ [] := by
  constructor
  · rfl
  · decide

/-- C5 amended: during the restoration pass a placeholder whose id has no
entry in the CodeBlock mapping is left verbatim (the loop iterates only over
the mapping's own items), and restoration — a total function — never raises:
chunks whose contents contain no mapped id are returned unchanged. -/
theorem claim_C5 (chunks : List Chunk) (cbs : List (List Char × CodeBlock))
    (h : ∀ ch ∈ chunks, ∀ kb ∈ cbs, occCount kb.1 ch.content = 0) :
    restoreCodeBlocks chunks cbs = chunks := by
  induction chunks with
  | nil => rfl
  | cons ch rest ih =>
    rw [restoreCodeBlocks, List.map_cons]
    have hone : restoreOne cbs ch = ch := by
      cases ch with
      | mk content meta =>
        rw [restoreOne]
        rw [restoreContent_of_no_occurrence cbs content
          (h ⟨content, meta⟩ (List.mem_cons_self ..))]
    rw [hone]
    have := ih (fun x hx kb hkb => h x (List.mem_cons_of_mem ch hx) kb hkb)
    rw [restoreCodeBlocks] at this
    rw [this]

/-- C5 witness: a chunk mentioning an unmatched placeholder id 9, restored
against a mapping that only knows id 0, comes back unchanged. -/
theorem claim_C5_witness :
    (∀ ch ∈ [Chunk.mk (cs "text with __CODE_BLOCK_9__ inside") [(cs "k", MVal.int 1)]],
      ∀ kb ∈ [(cs "__CODE_BLOCK_0__", CodeBlock.mk (cs "plain") (cs "x") (cs "fenced") [] [])],
        occCount kb.1 ch.content = 0) ∧
    restoreCodeBlocks
      [Chunk.mk (cs "text with __CODE_BLOCK_9__ inside") [(cs "k", MVal.int 1)]]
      [(cs "__CODE_BLOCK_0__", CodeBlock.mk (cs "plain") (cs "x") (cs "fenced") [] [])] =
      [Chunk.mk (cs "text with __CODE_BLOCK_9__ inside") [(cs "k", MVal.int 1)]] :=
  ⟨by decide, claim_C5 _ _ (by decide)⟩

/-! ### Purity of extraction -/

/-- C8: code-block extraction is deterministic and pure — the result of a
call depends only on the call's own input and configuration (any history of
earlier calls on the same instance yields the same output), and no state
observable by a later call is modified (the threaded state is returned
unchanged). -/
theorem claim_C8 (st : Config) (history : List (List Char)) (t : List Char) :
    (extractCodeBlocksStep (runCalls st history) t).1 =
        (extractCodeBlocksStep st t).1 ∧
      runCalls st history = st ∧
      (extractCodeBlocksStep st t).1 = extractCodeBlocks st t := by
  have hrun : runCalls st history = st := by
    induction history with
    | nil => rfl
    | cons u rest ih =>
      rw [runCalls, List.foldl_cons]
      exact ih
  exact ⟨by rw [hrun], hrun, rfl⟩

/-! ### The line-count fallback groups lines consecutively -/

theorem fallbackGo_eq_groups (language : List Char) (sec : Section) (pm : Dict)
    (lines : List (List Char)) (step : Nat) :
    ∀ fuel i, fallbackGo language sec pm lines step fuel i =
      (groupsOfGo step fuel (lines.drop i)).map (codePartialChunk language sec pm) := by
  intro fuel
  induction fuel with
  | zero => intro i; rfl
  | succ f ih =>
    intro i
    rw [fallbackGo, groupsOfGo]
    by_cases hi : i < lines.length
    · have hne : lines.drop i ≠ [] := by
        intro hnil
        have : lines.length ≤ i := by
          have := List.length_drop i lines
          rw [hnil] at this
          simp at this
          omega
        omega
      rw [if_pos hi, if_neg hne, List.map_cons, ih (i + step)]
      have hslice : pySlice lines i (i + step) = (lines.drop i).take step := by
        rw [pySlice, List.drop_take]
        congr 1
        omega
      rw [hslice, List.drop_drop]
    · have hnil : lines.drop i = [] := by
        rw [List.drop_eq_nil_iff]
        omega
      rw [if_neg hi, if_pos hnil]
      rfl

/-- C3: for every oversized code block whose language is not Python or whose
Python parse fails, the large-block splitter degrades to line-count
splitting: the block's lines are divided into consecutive groups of
`max(10, chunk_size // 40) = 37` lines (default configuration) and one
`code_partial` chunk is emitted per group; the function is total, so no
exception propagates. -/
theorem claim_C3 (ci : CodeBlock) (sec : Section) (pm : Dict)
    (pyParse : List Char → Option PyModule)
    (_hbig : 3000 < ci.content.length)
    (h : ci.language ≠ cs "python" ∨ pyParse ci.content = none) :
    splitLargeCodeBlock defaultConfig pyParse ci sec pm =
      (groupsOf 37 (splitLines ci.content)).map
        (codePartialChunk ci.language sec pm) := by
  have hstep : max 10 (defaultConfig.chunkSize / 40) = 37 := by decide
  have hfb : lineFallback defaultConfig ci sec pm =
      (groupsOf 37 (splitLines ci.content)).map
        (codePartialChunk ci.language sec pm) := by
    rw [lineFallback, hstep, groupsOf,
      fallbackGo_eq_groups ci.language sec pm (splitLines ci.content) 37
        ((splitLines ci.content).length + 1) 0]
    rw [List.drop_zero]
  rw [splitLargeCodeBlock]
  by_cases hl : ci.language = cs "python"
  · rcases h with hlang | hparse
    · exact absurd hl hlang
    · rw [if_pos ⟨hl, rfl⟩, hparse]
      exact hfb
  · rw [if_neg (fun hand => hl hand.1)]
    exact hfb

/-- C3 witness: a 3001-character block tagged `js` goes through the
line-count fallback. -/
theorem claim_C3_witness :
    (3000 < (List.replicate 3001 'a' : List Char).length ∧
      (cs "js" ≠ cs "python" ∨
        (fun (_ : List Char) => (none : Option PyModule))
          (List.replicate 3001 'a') = none)) ∧
    splitLargeCodeBlock defaultConfig (fun _ => none)
      ⟨cs "js", List.replicate 3001 'a', cs "fenced", [], []⟩
      ⟨0, cs "S", []⟩ [] =
      (groupsOf 37 (splitLines (List.replicate 3001 'a'))).map
        (codePartialChunk (cs "js") ⟨0, cs "S", []⟩ []) :=
  ⟨⟨by rw [List.length_replicate]; norm_num, Or.inl (by decide)⟩,
    claim_C3 _ _ _ _ (by rw [List.length_replicate]; norm_num) (Or.inl (by decide))⟩

/-! ### The Python branch of the large-block splitter -/

theorem filterMap_emitDef_eq_nil (codeLines : List (List Char))
    (language : List Char) (sec : Section) (pm : Dict) (l : List PyNode)
    (h : l.all (fun n => !n.isDef) = true) :
    l.filterMap (emitDefChunk codeLines language sec pm) = [] := by
  induction l with
  | nil => rfl
  | cons n rest ih =>
    rw [List.all_cons] at h
    rcases Bool.and_eq_true_iff.mp h with ⟨hn, hrest⟩
    rw [List.filterMap_cons]
    cases n with
    | funcDef a b c d => simp [PyNode.isDef] at hn
    | classDef a b c d => simp [PyNode.isDef] at hn
    | other c =>
      rw [show emitDefChunk codeLines language sec pm (.other c) = none from rfl]
      exact ih hrest

/-! ### Extraction of a single leading fenced block -/

theorem findClose_append (body : List Char)
    (hocc : occCount (cs "```") (body ++ cs "```") = 1) :
    ∀ fuel, body.length + 1 ≤ fuel →
      findClose fuel (body ++ cs "```") = some (body, []) := by
  induction body with
  | nil =>
    intro fuel hf
    cases fuel with
    | zero => omega
    | succ f => rfl
  | cons c b' ih =>
    intro fuel hf
    cases fuel with
    | zero => simp at hf
    | succ f =>
      have hocc' : occCount (cs "```") ((c :: b') ++ cs "```") =
          (if (cs "```").isPrefixOf (c :: (b' ++ cs "```")) then 1 else 0) +
            occCount (cs "```") (b' ++ cs "```") := by
        rw [List.cons_append, occCount_cons]
      have hpos : 0 < occCount (cs "```") (b' ++ cs "```") :=
        occCount_pos b' (by decide)
      have hnp : (cs "```").isPrefixOf (c :: (b' ++ cs "```")) = false := by
        cases hp : (cs "```").isPrefixOf (c :: (b' ++ cs "```")) with
        | true => rw [hocc', hp] at hocc; simp at hocc; omega
        | false => rfl
      have hrest : occCount (cs "```") (b' ++ cs "```") = 1 := by
        rw [hocc', hnp] at hocc
        simpa using hocc
      have goal_eq : findClose (f + 1) ((c :: b') ++ cs "```") =
          match findClose f (b' ++ cs "```") with
          | some (bd, after) => some (c :: bd, after)
          | none => none := by
        rw [List.cons_append, findClose, hnp]
        simp
      rw [goal_eq, ih hrest f (by simpa using Nat.succ_le_succ_iff.mp hf)]

theorem extractGo_nil (cfg : Config) (fuel counter : Nat) :
    extractGo cfg fuel counter [] = ([], []) := by
  cases fuel <;> rfl

theorem extractGo_fence (cfg : Config) (fuel counter : Nat) (ch : Char)
    (rest lang body after : List Char)
    (hm : matchFenceAt (ch :: rest) = some (lang, body, after)) :
    extractGo cfg (fuel + 1) counter (ch :: rest) =
      (placeholderName counter ++ (extractGo cfg fuel (counter + 1) after).1,
        (placeholderName counter, mkCodeBlock cfg lang body) ::
          (extractGo cfg fuel (counter + 1) after).2) := by
  rw [extractGo, hm]

theorem extractGo_fence' (cfg : Config) (fuel counter : Nat)
    (s lang body after : List Char) (hs : s ≠ [])
    (hm : matchFenceAt s = some (lang, body, after)) :
    extractGo cfg (fuel + 1) counter s =
      (placeholderName counter ++ (extractGo cfg fuel (counter + 1) after).1,
        (placeholderName counter, mkCodeBlock cfg lang body) ::
          (extractGo cfg fuel (counter + 1) after).2) := by
  cases s with
  | nil => exact absurd rfl hs
  | cons ch rest => exact extractGo_fence cfg fuel counter ch rest lang body after hm

/-- Matching the fence pattern at the head of a document that starts with a
python-tagged fence only depends on the scan for the closing fence. -/
theorem matchFenceAt_python (z : List Char) :
    matchFenceAt (cs "```python\n" ++ z) =
      match findClose (z.length + 1) z with
      | some (body, rest) => some (cs "python", body, rest)
      | none => none := rfl

theorem extract_single_python_block (cfg : Config) (body : List Char)
    (hocc : occCount (cs "```") (body ++ cs "```") = 1) :
    extractCodeBlocks cfg (cs "```python\n" ++ (body ++ cs "```")) =
      (cs "__CODE_BLOCK_0__",
        [(cs "__CODE_BLOCK_0__", mkCodeBlock cfg (cs "python") body)]) := by
  have hfc : findClose ((body ++ cs "```").length + 1) (body ++ cs "```") =
      some (body, []) := by
    apply findClose_append body hocc
    rw [List.length_append]
    omega
  have hm : matchFenceAt (cs "```python\n" ++ (body ++ cs "```")) =
      some (cs "python", body, []) := by
    rw [matchFenceAt_python (body ++ cs "```"), hfc]
  rw [extractCodeBlocks]
  have hlen : (cs "```python\n" ++ (body ++ cs "```")).length + 1 =
      (body.length + 13) + 1 := by
    simp [cs]
  rw [hlen]
  rw [extractGo_fence' cfg (body.length + 13) 0 _ (cs "python") body []
    (by simp [cs]) hm]
  rw [extractGo_nil]
  rw [show placeholderName 0 = cs "__CODE_BLOCK_0__" from by decide]
  simp

theorem splitLarge_python_nodefs (pf : List Char → Option PyModule)
    (B : CodeBlock) (sec : Section) (pm : Dict) (m : PyModule)
    (hlang : B.language = cs "python") (hparse : pf B.content = some m)
    (hnodefs : (walkNodes m).all (fun n => !n.isDef) = true) :
    splitLargeCodeBlock defaultConfig pf B sec pm = [] := by
  rw [splitLargeCodeBlock, if_pos ⟨hlang, rfl⟩, hparse]
  exact filterMap_emitDef_eq_nil (splitLines B.content) B.language sec pm
    (walkNodes m) hnodefs

theorem chunkSection_single_placeholder_nodefs
    (pf : List Char → Option PyModule) (bsplit : List Char → List (List Char))
    (pm : Dict) (B : CodeBlock) (m : PyModule)
    (hlang : B.language = cs "python")
    (hsize : 3000 < B.content.length)
    (hparse : pf B.content = some m)
    (hnodefs : (walkNodes m).all (fun n => !n.isDef) = true) :
    chunkSection defaultConfig pf bsplit
      ⟨0, cs "Introduction", [cs "__CODE_BLOCK_0__"]⟩
      [(cs "__CODE_BLOCK_0__", B)] pm = [] := by
  have e1 : chunkSection defaultConfig pf bsplit
      ⟨0, cs "Introduction", [cs "__CODE_BLOCK_0__"]⟩
      [(cs "__CODE_BLOCK_0__", B)] pm =
      textFlush bsplit ⟨0, cs "Introduction", [cs "__CODE_BLOCK_0__"]⟩ pm [] ++
        (if defaultConfig.codeBlockMaxSize < B.content.length ∧
            defaultConfig.preserveCodeBlocks = true then
          splitLargeCodeBlock defaultConfig pf B
            ⟨0, cs "Introduction", [cs "__CODE_BLOCK_0__"]⟩ pm
        else
          [⟨cs "__CODE_BLOCK_0__",
            codeMeta pm (cs "Introduction") 0 B⟩]) ++
        chunkSectionGo defaultConfig pf bsplit
          ⟨0, cs "Introduction", [cs "__CODE_BLOCK_0__"]⟩
          [(cs "__CODE_BLOCK_0__", B)] pm [[]] [] := rfl
  rw [e1, if_pos ⟨hsize, rfl⟩,
    splitLarge_python_nodefs pf B _ pm m hlang hparse hnodefs]
  rfl

/-- A document consisting of exactly one oversized python-tagged fenced
block whose parse succeeds with no function or class definition anywhere
produces no chunks at all: `_split_large_code_block` returns the empty list
and the block's content is dropped from the output of `split_text`. -/
theorem splitText_single_python_nodefs (body : List Char) (m : PyModule)
    (pf : List Char → Option PyModule) (bsplit : List Char → List (List Char))
    (pm : Dict)
    (hocc : occCount (cs "```") (body ++ cs "```") = 1)
    (hparse : pf body = some m)
    (hnodefs : (walkNodes m).all (fun n => !n.isDef) = true)
    (hsize : 3000 < body.length) :
    splitText defaultConfig pf bsplit (cs "```python\n" ++ (body ++ cs "```")) pm = [] := by
  have h0 : splitText defaultConfig pf bsplit
      (cs "```python\n" ++ (body ++ cs "```")) pm =
      restoreCodeBlocks
        (((parseMarkdownStructure defaultConfig
            (extractCodeBlocks defaultConfig (cs "```python\n" ++ (body ++ cs "```"))).1).map
          (fun s => chunkSection defaultConfig pf bsplit s
            (extractCodeBlocks defaultConfig (cs "```python\n" ++ (body ++ cs "```"))).2 pm)).flatten)
        (extractCodeBlocks defaultConfig (cs "```python\n" ++ (body ++ cs "```"))).2 := rfl
  rw [h0, extract_single_python_block defaultConfig body hocc]
  have hsec : parseMarkdownStructure defaultConfig (cs "__CODE_BLOCK_0__") =
      [⟨0, cs "Introduction", [cs "__CODE_BLOCK_0__"]⟩] := by decide
  rw [show ((cs "__CODE_BLOCK_0__",
      [(cs "__CODE_BLOCK_0__", mkCodeBlock defaultConfig (cs "python") body)])).1 =
      cs "__CODE_BLOCK_0__" from rfl]
  rw [show ((cs "__CODE_BLOCK_0__",
      [(cs "__CODE_BLOCK_0__", mkCodeBlock defaultConfig (cs "python") body)])).2 =
      [(cs "__CODE_BLOCK_0__", mkCodeBlock defaultConfig (cs "python") body)] from rfl]
  rw [hsec, List.map_cons, List.map_nil,
    chunkSection_single_placeholder_nodefs pf bsplit pm
      (mkCodeBlock defaultConfig (cs "python") body) m rfl
      (by simpa using hsize) (by simpa using hparse) hnodefs]
  rfl

/-- C10: an oversized (more than `code_block_max_size` characters) `python`
block that parses successfully but contains no function or class definition
anywhere in its tree makes `_split_large_code_block` return the empty chunk
list, and for a document consisting of exactly that fenced block,
`split_text` emits no chunk containing the block's content (it returns no
chunks at all). -/
theorem claim_C10 (body : List Char) (m : PyModule)
    (pf : List Char → Option PyModule) (bsplit : List Char → List (List Char))
    (sec : Section) (pm : Dict)
    (hocc : occCount (cs "```") (body ++ cs "```") = 1)
    (hparse : pf body = some m)
    (hnodefs : (walkNodes m).all (fun n => !n.isDef) = true)
    (hsize : 3000 < body.length) :
    splitLargeCodeBlock defaultConfig pf
      ⟨cs "python", body, cs "fenced", [], []⟩ sec pm = [] ∧
    splitText defaultConfig pf bsplit
      (cs "```python\n" ++ (body ++ cs "```")) pm = [] := by
  have _ := hsize
  constructor
  · exact splitLarge_python_nodefs pf ⟨cs "python", body, cs "fenced", [], []⟩
      sec pm m rfl hparse hnodefs
  · exact splitText_single_python_nodefs body m pf bsplit pm hocc hparse hnodefs hsize

theorem occCount_fence_replicate (n : Nat) :
    occCount (cs "```") (List.replicate n 'x' ++ cs "```") = 1 := by
  induction n with
  | zero => decide
  | succ k ih =>
    rw [List.replicate_succ, List.cons_append, occCount_cons]
    have : (cs "```").isPrefixOf ('x' :: (List.replicate k 'x' ++ cs "```")) = false := by
      simp [cs, List.isPrefixOf]
    rw [this, ih]
    simp

/-- C10 witness: 3001 characters of the single identifier expression
`xxx…x`, which parses as a module with one non-definition statement. -/
theorem claim_C10_witness :
    (occCount (cs "```") (List.replicate 3001 'x' ++ cs "```") = 1 ∧
      (fun (_ : List Char) => some (PyModule.mk [.other []]))
          (List.replicate 3001 'x') = some (PyModule.mk [.other []]) ∧
      ((walkNodes (PyModule.mk [.other []])).all (fun n => !n.isDef)) = true ∧
      3000 < (List.replicate 3001 'x' : List Char).length) ∧
    splitLargeCodeBlock defaultConfig (fun _ => some (PyModule.mk [.other []]))
      ⟨cs "python", List.replicate 3001 'x', cs "fenced", [], []⟩
      ⟨0, cs "S", []⟩ [] = [] ∧
    splitText defaultConfig (fun _ => some (PyModule.mk [.other []]))
      (rctsModel defaultConfig)
      (cs "```python\n" ++ (List.replicate 3001 'x' ++ cs "```")) [] = [] :=
  ⟨⟨occCount_fence_replicate 3001, rfl,
      by simp [walkNodes, sizeNodes, walkAux, PyNode.children, PyNode.isDef],
      by rw [List.length_replicate]; norm_num⟩,
    claim_C10 (List.replicate 3001 'x') (PyModule.mk [.other []]) _ _ _ _
      (occCount_fence_replicate 3001) rfl
      (by simp [walkNodes, sizeNodes, walkAux, PyNode.children, PyNode.isDef])
      (by rw [List.length_replicate]; norm_num)⟩

/-- C4 counterexample: a document consisting of a single oversized
python-tagged fenced block (3001 identifier characters) that parses with no
definitions yields zero chunks, so concatenating chunk contents gives the
empty string while the document is far from whitespace-only — reconstruction
fails under any whitespace normalization. -/
theorem claim_C4_counterexample :
    splitText defaultConfig (fun _ => some (PyModule.mk [.other []]))
      (rctsModel defaultConfig)
      (cs "```python\n" ++ (List.replicate 3001 'x' ++ cs "```")) [] = [] ∧
    stripWs (cs "```python\n" ++ (List.replicate 3001 'x' ++ cs "```")) ≠ [] := by
  constructor
  · exact splitText_single_python_nodefs (List.replicate 3001 'x')
      (PyModule.mk [.other []]) _ _ _
      (occCount_fence_replicate 3001) rfl
      (by simp [walkNodes, sizeNodes, walkAux, PyNode.children, PyNode.isDef])
      (by rw [List.length_replicate]; norm_num)
  · rw [stripWs_append]
    intro hnil
    rcases List.append_eq_nil.mp hnil with ⟨h1, _⟩
    exact absurd h1 (by decide)

/-! ### Claim C2: per-definition chunks of an oversized python block -/

theorem sizeNodes_append (a b : List PyNode) :
    sizeNodes (a ++ b) = sizeNodes a + sizeNodes b := by
  induction a with
  | nil => simp [sizeNodes]
  | cons n rest ih =>
    cases n with
    | funcDef nm l e cl => rw [List.cons_append, sizeNodes, sizeNodes, ih]; omega
    | classDef nm l e cl => rw [List.cons_append, sizeNodes, sizeNodes, ih]; omega
    | other cl => rw [List.cons_append, sizeNodes, sizeNodes, ih]; omega

theorem walkAux_cons (fuel : Nat) (n : PyNode) (queue : List PyNode) :
    walkAux (fuel + 1) (n :: queue) = n :: walkAux fuel (queue ++ n.children) := rfl

theorem walkNodes_eq_walkForest (m : PyModule) :
    walkNodes m = walkForest m.body := rfl

/-- C2 counterexample: the block has exactly one top-level definition, yet
the splitter emits two chunks, because `ast.walk` also visits the nested
`inner` definition — "exactly one chunk per top-level definition" fails. -/
theorem claim_C2_counterexample :
    (splitLargeCodeBlock defaultConfig (fun _ => some c2mod)
        ⟨cs "python", c2body, cs "fenced", [], []⟩ ⟨0, cs "S", []⟩ []).length = 2 ∧
    countTopDefs c2mod = 1 ∧
    3000 < c2body.length := by
  refine ⟨?_, rfl, ?_⟩
  · simp [splitLargeCodeBlock, walkNodes, sizeNodes, walkAux, PyNode.children,
      emitDefChunk, c2mod, defaultConfig]
  · have h1 : (cs "def outer():\n    def inner():\n        return 1\n    return inner  # ").length = 67 := by decide
    rw [c2body, List.length_append, h1, List.length_replicate]
    norm_num

/-- C2 amended: the splitter emits one chunk per function/class definition
found anywhere by `ast.walk` (breadth-first), not only per top-level
definition; in particular an oversized python block whose module body is
exactly two function definitions, with no nested definition anywhere below
them, yields exactly two `code_function` chunks, in order, each carrying the
definition's name and its complete source-line range re-fenced. -/
theorem claim_C2 (content fn gn : List Char) (fs fe gs ge : Nat)
    (cf cg : List PyNode) (fl cl : List (List Char))
    (pf : List Char → Option PyModule) (sec : Section) (pm : Dict)
    (hparse : pf content =
      some ⟨[.funcDef fn fs fe cf, .funcDef gn gs ge cg]⟩)
    (hnested : (walkForest (cf ++ cg)).all (fun n => !n.isDef) = true)
    (_hsize : 3000 < content.length) :
    splitLargeCodeBlock defaultConfig pf
        ⟨cs "python", content, cs "fenced", fl, cl⟩ sec pm =
      [⟨cs "```python\n" ++
          joinLines (pySlice (splitLines content) (fs - 1) fe) ++ cs "\n```",
        dictUpd pm
          [(cs "section_title", .str sec.title), (cs "section_level", .int sec.level),
           (cs "chunk_type", .str (cs "code_function")), (cs "language", .str (cs "python")),
           (cs "has_code", .boolean true), (cs "function_name", .str fn),
           (cs "class_name", .nil)]⟩,
       ⟨cs "```python\n" ++
          joinLines (pySlice (splitLines content) (gs - 1) ge) ++ cs "\n```",
        dictUpd pm
          [(cs "section_title", .str sec.title), (cs "section_level", .int sec.level),
           (cs "chunk_type", .str (cs "code_function")), (cs "language", .str (cs "python")),
           (cs "has_code", .boolean true), (cs "function_name", .str gn),
           (cs "class_name", .nil)]⟩] := by
  rw [splitLargeCodeBlock, if_pos ⟨rfl, rfl⟩]
  rw [show (⟨cs "python", content, cs "fenced", fl, cl⟩ : CodeBlock).content =
    content from rfl, hparse]
  dsimp only
  have hwalk : walkNodes ⟨[.funcDef fn fs fe cf, .funcDef gn gs ge cg]⟩ =
      .funcDef fn fs fe cf :: .funcDef gn gs ge cg :: walkForest (cf ++ cg) := by
    rw [walkNodes_eq_walkForest, walkForest]
    have hsz : sizeNodes [PyNode.funcDef fn fs fe cf, PyNode.funcDef gn gs ge cg] =
        sizeNodes cf + sizeNodes cg + 2 := by
      rw [sizeNodes, sizeNodes, sizeNodes]
      omega
    rw [hsz]
    rw [show sizeNodes cf + sizeNodes cg + 2 =
      (sizeNodes cf + sizeNodes cg + 1) + 1 from rfl]
    rw [walkAux_cons]
    simp only [PyNode.children, List.cons_append, List.nil_append]
    rw [walkAux_cons]
    simp only [PyNode.children]
    rw [walkForest, sizeNodes_append]
  rw [hwalk, List.filterMap_cons, List.filterMap_cons,
    filterMap_emitDef_eq_nil _ _ _ _ _ hnested]
  rfl

/-- C2 witness: two padded top-level functions `f` (lines 1-2) and `g`
(lines 4-5) whose subtrees contain no further definitions. -/
theorem claim_C2_witness :
    ((fun (_ : List Char) => some (PyModule.mk
        [.funcDef (cs "f") 1 2 [.other [], .other []],
         .funcDef (cs "g") 4 5 [.other [], .other []]]))
      (cs "def f():\n    return 1\n\ndef g(x):\n    return x + 2  # " ++
        List.replicate 3000 'x') =
      some (PyModule.mk
        [.funcDef (cs "f") 1 2 [.other [], .other []],
         .funcDef (cs "g") 4 5 [.other [], .other []]]) ∧
      (walkForest ([PyNode.other [], PyNode.other []] ++
        [PyNode.other [], PyNode.other []])).all (fun n => !n.isDef) = true ∧
      3000 < (cs "def f():\n    return 1\n\ndef g(x):\n    return x + 2  # " ++
        List.replicate 3000 'x').length) ∧
    splitLargeCodeBlock defaultConfig
      (fun _ => some (PyModule.mk
        [.funcDef (cs "f") 1 2 [.other [], .other []],
         .funcDef (cs "g") 4 5 [.other [], .other []]]))
      ⟨cs "python",
        cs "def f():\n    return 1\n\ndef g(x):\n    return x + 2  # " ++
          List.replicate 3000 'x', cs "fenced", [], []⟩ ⟨1, cs "T", []⟩ [] =
      [⟨cs "```python\n" ++
          joinLines (pySlice (splitLines
            (cs "def f():\n    return 1\n\ndef g(x):\n    return x + 2  # " ++
              List.replicate 3000 'x')) (1 - 1) 2) ++ cs "\n```",
        dictUpd []
          [(cs "section_title", .str (cs "T")), (cs "section_level", .int 1),
           (cs "chunk_type", .str (cs "code_function")), (cs "language", .str (cs "python")),
           (cs "has_code", .boolean true), (cs "function_name", .str (cs "f")),
           (cs "class_name", .nil)]⟩,
       ⟨cs "```python\n" ++
          joinLines (pySlice (splitLines
            (cs "def f():\n    return 1\n\ndef g(x):\n    return x + 2  # " ++
              List.replicate 3000 'x')) (4 - 1) 5) ++ cs "\n```",
        dictUpd []
          [(cs "section_title", .str (cs "T")), (cs "section_level", .int 1),
           (cs "chunk_type", .str (cs "code_function")), (cs "language", .str (cs "python")),
           (cs "has_code", .boolean true), (cs "function_name", .str (cs "g")),
           (cs "class_name", .nil)]⟩] :=
  ⟨⟨rfl,
    by simp [walkForest, sizeNodes, walkAux, PyNode.children, PyNode.isDef],
    by
      have h1 : (cs "def f():\n    return 1\n\ndef g(x):\n    return x + 2  # ").length = 53 := by decide
      rw [List.length_append, h1, List.length_replicate]
      norm_num⟩,
    claim_C2 _ _ _ 1 2 4 5 _ _ _ _ _ _ _ rfl
      (by simp [walkForest, sizeNodes, walkAux, PyNode.children, PyNode.isDef])
      (by
        have h1 : (cs "def f():\n    return 1\n\ndef g(x):\n    return x + 2  # ").length = 53 := by decide
        rw [List.length_append, h1, List.length_replicate]
        norm_num)⟩

/-! ### Claim C7: metadata inheritance -/

theorem metaShape_textMeta (pm : Dict) (st : List Char) (sl : Nat) :
    metaShape pm (textMeta pm st sl) :=
  ⟨_, rfl, by
    intro kv hkv
    simp only [List.mem_cons, List.not_mem_nil, or_false] at hkv
    rcases hkv with rfl | rfl | rfl | rfl <;> simp [chunkSpecificKeys]⟩

theorem metaShape_codeMeta (pm : Dict) (st : List Char) (sl : Nat)
    (ci : CodeBlock) : metaShape pm (codeMeta pm st sl ci) :=
  ⟨_, rfl, by
    intro kv hkv
    simp only [List.mem_cons, List.not_mem_nil, or_false] at hkv
    rcases hkv with rfl | rfl | rfl | rfl | rfl | rfl | rfl <;>
      simp [chunkSpecificKeys]⟩

theorem metaShape_codePartial (language : List Char) (sec : Section)
    (pm : Dict) (group : List (List Char)) :
    metaShape pm (codePartialChunk language sec pm group).meta :=
  ⟨_, rfl, by
    intro kv hkv
    simp only [List.mem_cons, List.not_mem_nil, or_false] at hkv
    rcases hkv with rfl | rfl | rfl | rfl | rfl <;> simp [chunkSpecificKeys]⟩

theorem metaShape_emitDef (codeLines : List (List Char)) (language : List Char)
    (sec : Section) (pm : Dict) (n : PyNode) (ch : Chunk)
    (h : emitDefChunk codeLines language sec pm n = some ch) :
    metaShape pm ch.meta := by
  cases n with
  | funcDef nm l e cl =>
    rw [emitDefChunk] at h
    cases h
    exact ⟨_, rfl, by
      intro kv hkv
      simp only [List.mem_cons, List.not_mem_nil, or_false] at hkv
      rcases hkv with rfl | rfl | rfl | rfl | rfl | rfl | rfl <;>
        simp [chunkSpecificKeys]⟩
  | classDef nm l e cl =>
    rw [emitDefChunk] at h
    cases h
    exact ⟨_, rfl, by
      intro kv hkv
      simp only [List.mem_cons, List.not_mem_nil, or_false] at hkv
      rcases hkv with rfl | rfl | rfl | rfl | rfl | rfl | rfl <;>
        simp [chunkSpecificKeys]⟩
  | other cl => exact absurd h (by rw [emitDefChunk]; simp)

theorem metaShape_fallbackGo (language : List Char) (sec : Section) (pm : Dict)
    (lines : List (List Char)) (step : Nat) :
    ∀ fuel i ch, ch ∈ fallbackGo language sec pm lines step fuel i →
      metaShape pm ch.meta := by
  intro fuel
  induction fuel with
  | zero => intro i ch h; simp [fallbackGo] at h
  | succ f ih =>
    intro i ch h
    rw [fallbackGo] at h
    by_cases hi : i < lines.length
    · rw [if_pos hi] at h
      rcases List.mem_cons.mp h with heq | hmem
      · subst heq; exact metaShape_codePartial ..
      · exact ih (i + step) ch hmem
    · rw [if_neg hi] at h
      simp at h

theorem metaShape_splitLarge (cfg : Config) (pf : List Char → Option PyModule)
    (ci : CodeBlock) (sec : Section) (pm : Dict) (ch : Chunk)
    (h : ch ∈ splitLargeCodeBlock cfg pf ci sec pm) : metaShape pm ch.meta := by
  have hfb : ∀ ch, ch ∈ lineFallback cfg ci sec pm → metaShape pm ch.meta := by
    intro ch' h'
    rw [lineFallback] at h'
    exact metaShape_fallbackGo _ _ _ _ _ _ _ _ h'
  rw [splitLargeCodeBlock] at h
  by_cases hc : ci.language = cs "python" ∧ cfg.preserveFunctions = true
  · rw [if_pos hc] at h
    cases hp : pf ci.content with
    | some tree =>
      rw [hp] at h
      rcases List.mem_filterMap.mp h with ⟨n, _, hn⟩
      exact metaShape_emitDef _ _ _ _ n ch hn
    | none =>
      rw [hp] at h
      exact hfb ch h
  · rw [if_neg hc] at h
    exact hfb ch h

theorem metaShape_textFlush (bsplit : List Char → List (List Char))
    (sec : Section) (pm : Dict) (buffer : List (List Char)) (ch : Chunk)
    (h : ch ∈ textFlush bsplit sec pm buffer) : metaShape pm ch.meta := by
  rw [textFlush] at h
  by_cases hb : buffer = []
  · rw [if_pos hb] at h; simp at h
  · rw [if_neg hb] at h
    by_cases hts : pyStrip (joinLines buffer) = []
    · rw [if_pos hts] at h; simp at h
    · rw [if_neg hts] at h
      rcases List.mem_map.mp h with ⟨c, _, hc⟩
      subst hc
      exact metaShape_textMeta pm sec.title sec.level

theorem metaShape_chunkSectionGo (cfg : Config)
    (pf : List Char → Option PyModule) (bsplit : List Char → List (List Char))
    (sec : Section) (cbs : List (List Char × CodeBlock)) (pm : Dict) :
    ∀ parts buffer ch,
      ch ∈ chunkSectionGo cfg pf bsplit sec cbs pm parts buffer →
        metaShape pm ch.meta := by
  intro parts
  induction parts with
  | nil =>
    intro buffer ch h
    rw [chunkSectionGo] at h
    exact metaShape_textFlush bsplit sec pm buffer ch h
  | cons part rest ih =>
    intro buffer ch h
    rw [chunkSectionGo] at h
    cases hsc : (if (cs "__CODE_BLOCK_").isPrefixOf part then lookupCB cbs part else none) with
    | some ci =>
      rw [hsc] at h
      rcases List.mem_append.mp h with h1 | h2
      · rcases List.mem_append.mp h1 with h11 | h12
        · exact metaShape_textFlush bsplit sec pm buffer ch h11
        · by_cases hbig : cfg.codeBlockMaxSize < ci.content.length ∧ cfg.preserveCodeBlocks = true
          · rw [if_pos hbig] at h12
            exact metaShape_splitLarge cfg pf ci sec pm ch h12
          · rw [if_neg hbig] at h12
            rcases List.mem_singleton.mp h12 with rfl
            exact metaShape_codeMeta pm sec.title sec.level ci
      · exact ih [] ch h2
    | none =>
      rw [hsc] at h
      by_cases hs : pyStrip part ≠ []
      · rw [if_pos hs] at h
        exact ih (buffer ++ [part]) ch h
      · rw [if_neg hs] at h
        exact ih buffer ch h

/-- C7 counterexample: a parent metadata key named `chunk_type` is
overwritten (value `orig` becomes `text`), so "every key of the parent
metadata with its value unmodified" fails. -/
theorem claim_C7_counterexample :
    (splitText defaultConfig (fun _ => none) (rctsModel defaultConfig)
        (cs "hello") [(cs "chunk_type", .str (cs "orig"))]).map
      (fun ch => dictGet ch.meta (cs "chunk_type")) =
      [some (.str (cs "text"))] ∧
    MVal.str (cs "text") ≠ MVal.str (cs "orig") := by
  constructor
  · rfl
  · decide

/-- C7 amended: every chunk emitted by `split_text` carries every key of the
parent metadata whose name is not one of the chunk-specific keys
(`section_title`, `section_level`, `chunk_type`, `has_code`, `language`,
`functions`, `classes`, `function_name`, `class_name`) with its value
unmodified; parent keys that collide with a chunk-specific key are
overwritten. -/
theorem claim_C7 (cfg : Config) (pf : List Char → Option PyModule)
    (bsplit : List Char → List (List Char)) (t : List Char) (pm : Dict)
    (k : List Char) (v : MVal)
    (hk : k ∉ chunkSpecificKeys) (hv : dictGet pm k = some v) :
    ∀ ch ∈ splitText cfg pf bsplit t pm, dictGet ch.meta k = some v := by
  intro ch hch
  have h0 : splitText cfg pf bsplit t pm =
      restoreCodeBlocks
        (((parseMarkdownStructure cfg (extractCodeBlocks cfg t).1).map
          (fun s => chunkSection cfg pf bsplit s (extractCodeBlocks cfg t).2 pm)).flatten)
        (extractCodeBlocks cfg t).2 := rfl
  rw [h0, restoreCodeBlocks] at hch
  rcases List.mem_map.mp hch with ⟨ch₀, hch₀, hrest⟩
  have hmeta : ch.meta = ch₀.meta := by
    subst hrest
    rfl
  rcases List.mem_flatten.mp hch₀ with ⟨l, hl, hchl⟩
  rcases List.mem_map.mp hl with ⟨s, _, hsl⟩
  subst hsl
  rw [chunkSection] at hchl
  rcases metaShape_chunkSectionGo cfg pf bsplit s (extractCodeBlocks cfg t).2 pm
    _ [] ch₀ hchl with ⟨kvs, hd, hkeys⟩
  rw [hmeta, hd, dictGet_upd_notmem pm kvs k
    (fun kv hkv heq => hk (heq ▸ hkeys kv hkv))]
  exact hv

/-- C7 witness: the parent key `source` survives into every chunk of a small
mixed document. -/
theorem claim_C7_witness :
    (cs "source" ∉ chunkSpecificKeys ∧
      dictGet [(cs "source", MVal.str (cs "d1"))] (cs "source") =
        some (MVal.str (cs "d1"))) ∧
    ∀ ch ∈ splitText defaultConfig (fun _ => none) (rctsModel defaultConfig)
        (cs "intro\n```py\nz = 1\n```")
        [(cs "source", MVal.str (cs "d1"))],
      dictGet ch.meta (cs "source") = some (MVal.str (cs "d1")) :=
  ⟨⟨by decide, by decide⟩,
    claim_C7 defaultConfig _ _ _ _ (cs "source") (MVal.str (cs "d1"))
      (by decide) (by decide)⟩

/-! ### Claim C4: prose-only round trip -/

theorem matchFenceAt_none {s : List Char}
    (h : (cs "```").isPrefixOf s = false) : matchFenceAt s = none := by
  rw [matchFenceAt, h]
  rfl

theorem matchPlaceholderAt_none {s : List Char}
    (h : (cs "__CODE_BLOCK_").isPrefixOf s = false) :
    matchPlaceholderAt s = none := by
  rw [matchPlaceholderAt, h]
  rfl

theorem extractGo_step_none (cfg : Config) (fuel counter : Nat) (ch : Char)
    (rest : List Char) (hm : matchFenceAt (ch :: rest) = none) :
    extractGo cfg (fuel + 1) counter (ch :: rest) =
      (ch :: (extractGo cfg fuel counter rest).1,
        (extractGo cfg fuel counter rest).2) := by
  rw [extractGo, hm]

theorem extractGo_no_fence (cfg : Config) (s : List Char)
    (h : occCount (cs "```") s = 0) :
    ∀ fuel counter, extractGo cfg fuel counter s = (s, []) := by
  induction s with
  | nil => intro fuel counter; exact extractGo_nil cfg fuel counter
  | cons ch rest ih =>
    intro fuel counter
    rcases occCount_cons_zero h with ⟨hpre, hrest⟩
    cases fuel with
    | zero => rfl
    | succ f =>
      rw [extractGo_step_none cfg f counter ch rest (matchFenceAt_none hpre),
        ih hrest f counter]

/-- A document with no triple backtick passes through extraction unchanged
with an empty block mapping. -/
theorem extract_no_fence (cfg : Config) (t : List Char)
    (h : occCount (cs "```") t = 0) : extractCodeBlocks cfg t = (t, []) :=
  extractGo_no_fence cfg t h (t.length + 1) 0

theorem reSplitGo_no_placeholder (s : List Char)
    (h : occCount (cs "__CODE_BLOCK_") s = 0) :
    ∀ fuel acc, reSplitGo fuel acc s = [acc.reverse ++ s] := by
  induction s with
  | nil =>
    intro fuel acc
    cases fuel with
    | zero => rfl
    | succ f => simp [reSplitGo]
  | cons ch rest ih =>
    intro fuel acc
    rcases occCount_cons_zero h with ⟨hpre, hrest⟩
    cases fuel with
    | zero => rfl
    | succ f =>
      rw [reSplitGo, matchPlaceholderAt_none hpre, ih hrest f (ch :: acc)]
      simp

theorem reSplitPlaceholder_no_placeholder (s : List Char)
    (h : occCount (cs "__CODE_BLOCK_") s = 0) : reSplitPlaceholder s = [s] := by
  rw [reSplitPlaceholder, reSplitGo_no_placeholder s h]
  rfl

/-- Modelled from the spec: a text that already fits in the chunk size comes
back from the third-party base splitter as a single stripped chunk. -/
theorem rctsModel_small (cfg : Config) (t : List Char)
    (h : t.length ≤ cfg.chunkSize) : rctsModel cfg t = [pyStrip t] := by
  rw [rctsModel, rctsSeparators, rctsGo, if_pos h]
  rfl

theorem restoreCodeBlocks_nil_cbs (chunks : List Chunk) :
    restoreCodeBlocks chunks [] = chunks := by
  induction chunks with
  | nil => rfl
  | cons ch rest ih =>
    rw [restoreCodeBlocks, List.map_cons]
    rw [restoreCodeBlocks] at ih
    rw [ih]
    rfl

/-- A prose-only section (no placeholder occurrence, text within the chunk
budget) becomes at most one text chunk, holding its stripped text. -/
theorem chunkSection_prose_only (cfg : Config)
    (pf : List Char → Option PyModule) (sec : Section)
    (cbs : List (List Char × CodeBlock)) (pm : Dict)
    (hocc : occCount (cs "__CODE_BLOCK_") (joinLines sec.content) = 0)
    (hlen : (joinLines sec.content).length ≤ cfg.chunkSize) :
    chunkSection cfg pf (rctsModel cfg) sec cbs pm =
      if pyStrip (joinLines sec.content) = [] then []
      else [⟨pyStrip (pyStrip (joinLines sec.content)),
        textMeta pm sec.title sec.level⟩] := by
  rw [chunkSection, reSplitPlaceholder_no_placeholder _ hocc]
  rw [chunkSectionGo]
  have hpre : (cs "__CODE_BLOCK_").isPrefixOf (joinLines sec.content) = false :=
    not_isPrefixOf_of_occCount_zero (by decide) hocc
  rw [hpre]
  simp only [Bool.false_eq_true, if_false]
  by_cases hs : pyStrip (joinLines sec.content) = []
  · rw [if_neg (by simpa using hs), if_pos hs]
    rfl
  · rw [if_pos (by simpa using hs), if_neg hs]
    rw [chunkSectionGo, textFlush, if_neg (by simp)]
    dsimp only
    rw [show pyStrip (joinLines ([] ++ [joinLines sec.content])) =
      pyStrip (joinLines sec.content) from rfl]
    rw [if_neg hs,
      rctsModel_small cfg (pyStrip (joinLines sec.content))
        (le_trans (pyStrip_length_le _) hlen)]
    rfl

theorem stripWs_flatten_groups (groups : List (List (List Char))) :
    (groups.flatten.map stripWs).flatten =
      (groups.map (fun g => (g.map stripWs).flatten)).flatten := by
  induction groups with
  | nil => rfl
  | cons g rest ih =>
    rw [List.flatten_cons, List.map_append, List.flatten_append, ih,
      List.map_cons, List.flatten_cons]

/-- C4 counterpart machinery: summing the per-section contributions. -/
theorem claim_C4_sections_sum (cfg : Config)
    (pf : List Char → Option PyModule)
    (cbs : List (List Char × CodeBlock)) (pm : Dict) :
    ∀ (secs : List Section),
      (∀ sec ∈ secs,
        occCount (cs "__CODE_BLOCK_") (joinLines sec.content) = 0 ∧
          (joinLines sec.content).length ≤ cfg.chunkSize) →
      stripWs (((secs.map
          (fun s => chunkSection cfg pf (rctsModel cfg) s cbs pm)).flatten.map
            Chunk.content).flatten) =
        (secs.map (fun sec => stripWs (joinLines sec.content))).flatten := by
  intro secs
  induction secs with
  | nil => intro h; rfl
  | cons sec rest ih =>
    intro h
    rcases h sec (List.mem_cons_self ..) with ⟨hocc, hlen⟩
    rw [List.map_cons, List.flatten_cons, List.map_append, List.flatten_append,
      stripWs_append, ih (fun s hs => h s (List.mem_cons_of_mem sec hs)),
      List.map_cons, List.flatten_cons]
    congr 1
    rw [chunkSection_prose_only cfg pf sec cbs pm hocc hlen]
    by_cases hs : pyStrip (joinLines sec.content) = []
    · rw [if_pos hs]
      rw [stripWs_nil_of_pyStrip_nil hs]
      rfl
    · rw [if_neg hs]
      simp only [List.map_cons, List.map_nil, List.flatten_cons,
        List.flatten_nil, List.append_nil]
      rw [stripWs_pyStrip, stripWs_pyStrip]

/-- C4 amended: for a prose-only document — no code fence and no literal
placeholder token — whose length is within `chunk_size`, concatenating the
contents of the chunks returned by `split_text` reconstructs the original
text modulo whitespace normalization (each section contributes its stripped
text).  The unrestricted claim fails: oversized Python blocks can lose all
non-definition content (see the counterexample), and the prose splitter's
overlap duplicates characters for longer documents. -/
theorem claim_C4 (t : List Char) (pm : Dict)
    (pf : List Char → Option PyModule)
    (hfence : occCount (cs "```") t = 0)
    (hph : occCount (cs "__CODE_BLOCK_") t = 0)
    (hlen : t.length ≤ 1500) :
    stripWs (((splitText defaultConfig pf (rctsModel defaultConfig) t pm).map
      Chunk.content).flatten) = stripWs t := by
  have h0 : splitText defaultConfig pf (rctsModel defaultConfig) t pm =
      restoreCodeBlocks
        (((parseMarkdownStructure defaultConfig (extractCodeBlocks defaultConfig t).1).map
          (fun s => chunkSection defaultConfig pf (rctsModel defaultConfig) s
            (extractCodeBlocks defaultConfig t).2 pm)).flatten)
        (extractCodeBlocks defaultConfig t).2 := rfl
  rw [h0, extract_no_fence defaultConfig t hfence]
  rw [show ((t, ([] : List (List Char × CodeBlock)))).1 = t from rfl,
    show ((t, ([] : List (List Char × CodeBlock)))).2 =
      ([] : List (List Char × CodeBlock)) from rfl]
  rw [restoreCodeBlocks_nil_cbs]
  have hsecs : ∀ sec ∈ parseMarkdownStructure defaultConfig t,
      occCount (cs "__CODE_BLOCK_") (joinLines sec.content) = 0 ∧
        (joinLines sec.content).length ≤ defaultConfig.chunkSize := by
    intro sec hsec
    have hmem : sec.content ∈
        (parseMarkdownStructure defaultConfig t).map Section.content :=
      List.mem_map_of_mem Section.content hsec
    rcases joinLines_flatten_factor _ sec.content hmem with ⟨u, v, huv⟩
    rw [parseMarkdownStructure_flatten, joinLines_splitLines] at huv
    constructor
    · have h1 : occCount (cs "__CODE_BLOCK_") (joinLines sec.content) ≤
          occCount (cs "__CODE_BLOCK_") (joinLines sec.content ++ v) :=
        occCount_le_append_left _ _ _ (by decide)
      have h2 : occCount (cs "__CODE_BLOCK_") (joinLines sec.content ++ v) ≤
          occCount (cs "__CODE_BLOCK_") (u ++ (joinLines sec.content ++ v)) :=
        occCount_le_append_right _ _ _
      rw [← List.append_assoc, ← huv] at h2
      omega
    · have h3 : (u ++ joinLines sec.content ++ v).length = t.length := by
        rw [← huv]
      simp only [List.length_append] at h3
      simp only [defaultConfig]
      omega
  rw [claim_C4_sections_sum defaultConfig pf [] pm
    (parseMarkdownStructure defaultConfig t) hsecs]
  have hsplit : stripWs t = ((splitLines t).map stripWs).flatten := by
    calc stripWs t = stripWs (joinLines (splitLines t)) := by rw [joinLines_splitLines]
      _ = ((splitLines t).map stripWs).flatten := stripWs_joinLines _
  rw [hsplit]
  have hpart := parseMarkdownStructure_flatten defaultConfig t
  rw [← hpart, stripWs_flatten_groups]
  congr 1
  rw [List.map_map]
  apply List.map_congr_left
  intro sec _
  rw [Function.comp_apply, stripWs_joinLines]

/-- C4 witness: a short two-section prose document round-trips modulo
whitespace. -/
theorem claim_C4_witness :
    (occCount (cs "```") (cs "# A\nHello world.\n\nMore prose.") = 0 ∧
      occCount (cs "__CODE_BLOCK_") (cs "# A\nHello world.\n\nMore prose.") = 0 ∧
      (cs "# A\nHello world.\n\nMore prose.").length ≤ 1500) ∧
    stripWs (((splitText defaultConfig (fun _ => none) (rctsModel defaultConfig)
        (cs "# A\nHello world.\n\nMore prose.") []).map Chunk.content).flatten) =
      stripWs (cs "# A\nHello world.\n\nMore prose.") :=
  ⟨⟨by decide, by decide, by decide⟩,
    claim_C4 _ _ _ (by decide) (by decide) (by decide)⟩

/-! ### Claim C1: locating the unique placeholder occurrence -/

theorem occCount_pos_exists {pat s : List Char} (h : 0 < occCount pat s) :
    ∃ u v, s = u ++ v ∧ pat.isPrefixOf v := by
  induction s with
  | nil =>
    by_cases hp : pat = []
    · exact ⟨[], [], rfl, by simp [hp, List.isPrefixOf]⟩
    · rw [occCount_nil pat hp] at h
      omega
  | cons ch rest ih =>
    rw [occCount_cons] at h
    cases hp : pat.isPrefixOf (ch :: rest) with
    | true => exact ⟨[], ch :: rest, rfl, hp⟩
    | false =>
      rw [hp] at h
      simp at h
      rcases ih h with ⟨u, v, huv, hpre⟩
      exact ⟨ch :: u, v, by rw [huv, List.cons_append], hpre⟩

theorem occ_unique_length {pat s u₁ v₁ u₂ v₂ : List Char}
    (hocc : occCount pat s = 1) (h₁ : s = u₁ ++ v₁) (h₂ : s = u₂ ++ v₂)
    (hp₁ : pat.isPrefixOf v₁) (hp₂ : pat.isPrefixOf v₂) :
    u₁.length = u₂.length := by
  rcases Nat.lt_trichotomy u₁.length u₂.length with hlt | heq | hgt
  · have := occCount_two u₁ v₁ u₂ v₂ s h₁ h₂ hp₁ hp₂ hlt
    omega
  · exact heq
  · have := occCount_two u₂ v₂ u₁ v₁ s h₂ h₁ hp₂ hp₁ hgt
    omega

theorem append_inj_of_length {u₁ v₁ u₂ v₂ : List Char}
    (h : u₁ ++ v₁ = u₂ ++ v₂) (hl : u₁.length = u₂.length) :
    u₁ = u₂ ∧ v₁ = v₂ :=
  List.append_inj h hl

theorem flatten_ne_nil_of_head_ne_nil (g : List (List Char))
    (rest : List (List (List Char))) (hg : g ≠ []) :
    (g :: rest).flatten ≠ [] := by
  rw [List.flatten_cons]
  intro hnil
  exact hg (List.append_eq_nil.mp hnil).1

/-- The placeholder contains no newline, so when a text ending at a newline
boundary equals `__CODE_BLOCK_0__ ++ c` beyond position 13, the whole
placeholder sits before the newline. -/
theorem placeholder_before_newline (w z c : List Char)
    (h : w ++ '\n' :: z = cs "__CODE_BLOCK_0__" ++ c)
    (hw : 13 ≤ w.length) : ∃ y, w = cs "__CODE_BLOCK_0__" ++ y := by
  by_cases hlen : 16 ≤ w.length
  · have hw1 : w <+: cs "__CODE_BLOCK_0__" ++ c := ⟨'\n' :: z, h⟩
    have hw2 : cs "__CODE_BLOCK_0__" <+: cs "__CODE_BLOCK_0__" ++ c :=
      List.prefix_append ..
    have hpre := List.prefix_of_prefix_length_le hw2 hw1
      (by
        have h16 : (cs "__CODE_BLOCK_0__").length = 16 := by decide
        omega)
    rcases hpre with ⟨y, hy⟩
    exact ⟨y, hy.symm⟩
  · exfalso
    have hnl : (w ++ '\n' :: z)[w.length]? = some '\n' := by
      rw [List.getElem?_append_right (le_refl w.length)]
      simp
    rw [h] at hnl
    have hk : (cs "__CODE_BLOCK_0__" ++ c)[w.length]? =
        (cs "__CODE_BLOCK_0__")[w.length]? := by
      rw [List.getElem?_append_left]
      have h16 : (cs "__CODE_BLOCK_0__").length = 16 := by decide
      omega
    rw [hk] at hnl
    interval_cases hwl : w.length
    · exact absurd hnl (by decide)
    · exact absurd hnl (by decide)
    · exact absurd hnl (by decide)

theorem occ_zero_groups (pat : List Char) (hp : pat ≠ [])
    (groups : List (List (List Char)))
    (h : occCount pat (joinLines groups.flatten) = 0) :
    ∀ g ∈ groups, occCount pat (joinLines g) = 0 := by
  intro g hg
  rcases joinLines_flatten_factor groups g hg with ⟨u, v, huv⟩
  have h1 := occCount_le_append_left pat (joinLines g) v hp
  have h2 := occCount_le_append_right pat u (joinLines g ++ v)
  rw [← List.append_assoc, ← huv] at h2
  omega

/-- The group decomposition of a line list localizes the unique placeholder
occurrence to a single group. -/
theorem locate_placeholder (groups : List (List (List Char))) :
    ∀ a c, (∀ g ∈ groups, g ≠ []) →
      joinLines groups.flatten = a ++ (cs "__CODE_BLOCK_0__" ++ c) →
      occCount (cs "__CODE_BLOCK_") (joinLines groups.flatten) = 1 →
      ∃ gs₁ g gs₂ x y,
        groups = gs₁ ++ g :: gs₂ ∧
        joinLines g = x ++ (cs "__CODE_BLOCK_0__" ++ y) ∧
        occCount (cs "__CODE_BLOCK_") (joinLines g) = 1 ∧
        (∀ g' ∈ gs₁, occCount (cs "__CODE_BLOCK_") (joinLines g') = 0) ∧
        (∀ g' ∈ gs₂, occCount (cs "__CODE_BLOCK_") (joinLines g') = 0) := by
  induction groups with
  | nil =>
    intro a c hne hjoin hocc
    exfalso
    have hl := congrArg List.length hjoin
    have h16 : (cs "__CODE_BLOCK_0__").length = 16 := by decide
    have hL0 : (joinLines (([] : List (List (List Char))).flatten)).length = 0 := rfl
    rw [hL0, List.length_append, List.length_append, h16] at hl
    omega
  | cons g rest ih =>
    intro a c hne hjoin hocc
    have hO1 : (cs "__CODE_BLOCK_").isPrefixOf (cs "__CODE_BLOCK_0__" ++ c) :=
      isPrefixOf_append_left c (by decide)
    by_cases hrest : rest = []
    · subst hrest
      have hflat : (([g] : List (List (List Char)))).flatten = g := by simp
      rw [hflat] at hjoin hocc
      exact ⟨[], g, [], a, c, rfl, hjoin, hocc, by simp, by simp⟩
    · obtain ⟨g₂, rest', rfl⟩ : ∃ g₂ rest', rest = g₂ :: rest' := by
        cases rest with
        | nil => exact absurd rfl hrest
        | cons x xs => exact ⟨x, xs, rfl⟩
      have hgne : g ≠ [] := hne g (List.mem_cons_self ..)
      have hfne : ((g₂ :: rest').flatten) ≠ [] :=
        flatten_ne_nil_of_head_ne_nil g₂ rest'
          (hne g₂ (by simp))
      have hJ : joinLines ((g :: g₂ :: rest').flatten) =
          joinLines g ++ '\n' :: joinLines (g₂ :: rest').flatten := by
        rw [List.flatten_cons, joinLines_append g _ hgne hfne]
      rw [hJ] at hjoin hocc
      have hadd := @occCount_append_newline (cs "__CODE_BLOCK_") (joinLines g)
        (joinLines (g₂ :: rest').flatten)
        (by decide) (by decide)
      have hsum : occCount (cs "__CODE_BLOCK_") (joinLines g) +
          occCount (cs "__CODE_BLOCK_")
            (joinLines (g₂ :: rest').flatten) = 1 := by
        rw [← hadd]
        exact hocc
      have hcases :
          (occCount (cs "__CODE_BLOCK_") (joinLines g) = 1 ∧
            occCount (cs "__CODE_BLOCK_") (joinLines (g₂ :: rest').flatten) = 0) ∨
          (occCount (cs "__CODE_BLOCK_") (joinLines g) = 0 ∧
            occCount (cs "__CODE_BLOCK_") (joinLines (g₂ :: rest').flatten) = 1) := by
        omega
      rcases hcases with ⟨hT1, hP0⟩ | ⟨hT0, hP1⟩
      · rcases occCount_pos_exists
          (show 0 < occCount (cs "__CODE_BLOCK_") (joinLines g) by omega) with
          ⟨u, w, hTuw, hpw⟩
        have hsu : joinLines g ++ '\n' :: joinLines (g₂ :: rest').flatten =
            u ++ (w ++ '\n' :: joinLines (g₂ :: rest').flatten) := by
          rw [hTuw]
          simp
        have hpw' : (cs "__CODE_BLOCK_").isPrefixOf
            (w ++ '\n' :: joinLines (g₂ :: rest').flatten) :=
          isPrefixOf_append_left _ hpw
        have hlen : u.length = a.length :=
          occ_unique_length hocc (hsu.symm ▸ rfl) hjoin hpw' hO1
        rcases append_inj_of_length (hsu.symm.trans hjoin) hlen with ⟨hua, hwv⟩
        have hw13 : 13 ≤ w.length := by
          have := (List.isPrefixOf_iff_prefix.mp hpw).length_le
          have h13 : (cs "__CODE_BLOCK_").length = 13 := by decide
          omega
        rcases placeholder_before_newline w (joinLines (g₂ :: rest').flatten) c
          hwv hw13 with ⟨y', hwy⟩
        refine ⟨[], g, g₂ :: rest', u, y', by simp, ?_, hT1, by simp, ?_⟩
        · rw [hTuw, hwy]
        · intro g' hg'
          exact occ_zero_groups (cs "__CODE_BLOCK_") (by decide) (g₂ :: rest')
            hP0 g' hg'
      · by_cases hcase : (joinLines g).length < a.length
        · have hap : a <+:
              (joinLines g ++ '\n' :: joinLines (g₂ :: rest').flatten) :=
            ⟨cs "__CODE_BLOCK_0__" ++ c, hjoin.symm⟩
          have hTp : (joinLines g ++ ['\n']) <+:
              (joinLines g ++ '\n' :: joinLines (g₂ :: rest').flatten) :=
            ⟨joinLines (g₂ :: rest').flatten, by simp⟩
          have hTa := List.prefix_of_prefix_length_le hTp hap
            (by simp; omega)
          rcases hTa with ⟨a₂, ha₂⟩
          have hPeq : joinLines (g₂ :: rest').flatten =
              a₂ ++ (cs "__CODE_BLOCK_0__" ++ c) := by
            have hstep : joinLines g ++ '\n' ::
                (a₂ ++ (cs "__CODE_BLOCK_0__" ++ c)) =
                joinLines g ++ '\n' :: joinLines (g₂ :: rest').flatten := by
              rw [hjoin, ← ha₂]
              simp
            have := List.append_cancel_left hstep
            exact (List.cons_injective.eq_iff.mp this).symm ▸ rfl
          rcases ih a₂ c (fun g' hg' => hne g' (List.mem_cons_of_mem _ hg'))
            hPeq (by rw [hPeq] at hP1; rw [hPeq]; exact hP1) with
            ⟨gs₁, gm, gs₂, x, y, hgs, hx, hocc1, hz₁, hz₂⟩
          refine ⟨g :: gs₁, gm, gs₂, x, y, by rw [hgs]; rfl, hx, hocc1, ?_, hz₂⟩
          intro g' hg'
          rcases List.mem_cons.mp hg' with rfl | hmem
          · exact hT0
          · exact hz₁ g' hmem
        · have hap : a <+:
              (joinLines g ++ '\n' :: joinLines (g₂ :: rest').flatten) :=
            ⟨cs "__CODE_BLOCK_0__" ++ c, hjoin.symm⟩
          have hTp : joinLines g <+:
              (joinLines g ++ '\n' :: joinLines (g₂ :: rest').flatten) :=
            List.prefix_append ..
          have haT := List.prefix_of_prefix_length_le hap hTp (by omega)
          rcases haT with ⟨mid, hmid⟩
          have hmidc : mid ++ '\n' :: joinLines (g₂ :: rest').flatten =
              cs "__CODE_BLOCK_0__" ++ c := by
            have hstep : a ++ (mid ++ '\n' :: joinLines (g₂ :: rest').flatten) =
                a ++ (cs "__CODE_BLOCK_0__" ++ c) := by
              rw [← List.append_assoc, hmid]
              exact hjoin
            exact List.append_cancel_left hstep
          have hpmid : (cs "__CODE_BLOCK_").isPrefixOf
              (mid ++ '\n' :: joinLines (g₂ :: rest').flatten) := by
            rw [hmidc]
            exact hO1
          have hpm : (cs "__CODE_BLOCK_").isPrefixOf mid :=
            isPrefixOf_append_newline (by decide) hpmid
          exfalso
          have hpos : 0 < occCount (cs "__CODE_BLOCK_") (a ++ mid) :=
            occCount_pos a hpm
          rw [hmid] at hpos
          omega

/-! ### The placeholder split of the section containing the block -/

theorem matchPlaceholderAt_k0 (y : List Char) :
    matchPlaceholderAt (cs "__CODE_BLOCK_0__" ++ y) =
      some (cs "__CODE_BLOCK_0__", y) := by
  have hd : List.takeWhile Char.isDigit
      (List.drop 13 (cs "__CODE_BLOCK_0__" ++ y)) = ['0'] := rfl
  rw [matchPlaceholderAt]
  rw [if_pos]
  · rw [if_pos]
    · rfl
    · refine ⟨by rw [hd]; decide, ?_⟩
      rw [hd]
      show (cs "__").isPrefixOf (cs "__" ++ y) = true
      exact isPrefixOf_append_left y (by decide)
  · exact isPrefixOf_append_left y (by decide)

theorem reSplitGo_step_match (fuel : Nat) (acc s m after : List Char)
    (hs : s ≠ []) (hm : matchPlaceholderAt s = some (m, after)) :
    reSplitGo (fuel + 1) acc s = acc.reverse :: m :: reSplitGo fuel [] after := by
  cases s with
  | nil => exact absurd rfl hs
  | cons ch rest =>
    rw [reSplitGo, hm]

theorem reSplitGo_step_skip (fuel : Nat) (acc : List Char) (ch : Char)
    (rest : List Char) (hm : matchPlaceholderAt (ch :: rest) = none) :
    reSplitGo (fuel + 1) acc (ch :: rest) = reSplitGo fuel (ch :: acc) rest := by
  rw [reSplitGo, hm]

theorem reSplitGo_single (x : List Char) :
    ∀ fuel acc y, x.length + 1 ≤ fuel →
      occCount (cs "__CODE_BLOCK_") (x ++ (cs "__CODE_BLOCK_0__" ++ y)) = 1 →
      reSplitGo fuel acc (x ++ (cs "__CODE_BLOCK_0__" ++ y)) =
        [acc.reverse ++ x, cs "__CODE_BLOCK_0__", y] := by
  induction x with
  | nil =>
    intro fuel acc y hf hocc
    cases fuel with
    | zero => omega
    | succ f =>
      rw [List.nil_append] at hocc ⊢
      rw [reSplitGo_step_match f acc _ _ y (by simp [cs]) (matchPlaceholderAt_k0 y)]
      have hk : cs "__CODE_BLOCK_0__" ++ y = '_' :: (cs "_CODE_BLOCK_0__" ++ y) := rfl
      have hpre : (cs "__CODE_BLOCK_").isPrefixOf ('_' :: (cs "_CODE_BLOCK_0__" ++ y)) = true := by
        rw [← hk]
        exact isPrefixOf_append_left y (by decide)
      rw [hk, occCount_cons, hpre] at hocc
      simp only [if_true] at hocc
      have hy0 : occCount (cs "__CODE_BLOCK_") y = 0 :=
        @occCount_append_right_zero (cs "__CODE_BLOCK_") (cs "_CODE_BLOCK_0__") y (by omega)
      rw [reSplitGo_no_placeholder y hy0 f []]
      simp
  | cons ch x' ih =>
    intro fuel acc y hf hocc
    cases fuel with
    | zero => simp at hf
    | succ f =>
      have hnp : (cs "__CODE_BLOCK_").isPrefixOf
          (ch :: (x' ++ (cs "__CODE_BLOCK_0__" ++ y))) = false := by
        cases hp : (cs "__CODE_BLOCK_").isPrefixOf
            (ch :: (x' ++ (cs "__CODE_BLOCK_0__" ++ y))) with
        | true =>
          exfalso
          have h2 := @occCount_two (cs "__CODE_BLOCK_")
            [] (ch :: (x' ++ (cs "__CODE_BLOCK_0__" ++ y)))
            (ch :: x') (cs "__CODE_BLOCK_0__" ++ y)
            ((ch :: x') ++ (cs "__CODE_BLOCK_0__" ++ y))
            (by simp) (by simp) (by rw [← List.cons_append]; exact hp)
            (isPrefixOf_append_left y (by decide)) (by simp)
          rw [List.cons_append] at hocc
          rw [List.cons_append] at h2
          omega
        | false => rfl
      rw [List.cons_append,
        reSplitGo_step_skip f acc ch _ (matchPlaceholderAt_none hnp)]
      have hocc' : occCount (cs "__CODE_BLOCK_")
          (x' ++ (cs "__CODE_BLOCK_0__" ++ y)) = 1 := by
        rw [List.cons_append, occCount_cons, hnp] at hocc
        simpa using hocc
      rw [ih f (ch :: acc) y (by simpa using Nat.succ_le_succ_iff.mp hf) hocc']
      simp

theorem reSplitPlaceholder_single (x y : List Char)
    (hocc : occCount (cs "__CODE_BLOCK_")
      (x ++ (cs "__CODE_BLOCK_0__" ++ y)) = 1) :
    reSplitPlaceholder (x ++ (cs "__CODE_BLOCK_0__" ++ y)) =
      [x, cs "__CODE_BLOCK_0__", y] := by
  rw [reSplitPlaceholder,
    reSplitGo_single x _ [] y (by simp only [List.length_append]; omega) hocc]
  rfl

/-! ### Selecting the chunks tagged `chunk_type='code'` -/

theorem chunkType_textMeta (pm : Dict) (st : List Char) (sl : Nat) :
    dictGet (textMeta pm st sl) (cs "chunk_type") =
      some (MVal.str (cs "text")) := by
  have h : textMeta pm st sl =
      dictSet (dictSet (dictSet (dictSet pm
        (cs "section_title") (.str st))
        (cs "section_level") (.int sl))
        (cs "chunk_type") (.str (cs "text")))
        (cs "has_code") (.boolean false) := rfl
  rw [h, dictGet_set_ne _ _ _ _ (by decide), dictGet_set_self]

theorem chunkType_codeMeta (pm : Dict) (st : List Char) (sl : Nat)
    (ci : CodeBlock) :
    dictGet (codeMeta pm st sl ci) (cs "chunk_type") =
      some (MVal.str (cs "code")) := by
  have h : codeMeta pm st sl ci =
      dictSet (dictSet (dictSet (dictSet (dictSet (dictSet (dictSet pm
        (cs "section_title") (.str st))
        (cs "section_level") (.int sl))
        (cs "chunk_type") (.str (cs "code")))
        (cs "language") (.str ci.language))
        (cs "has_code") (.boolean true))
        (cs "functions") (.strList ci.functions))
        (cs "classes") (.strList ci.classes) := rfl
  rw [h, dictGet_set_ne _ _ _ _ (by decide), dictGet_set_ne _ _ _ _ (by decide),
    dictGet_set_ne _ _ _ _ (by decide), dictGet_set_ne _ _ _ _ (by decide),
    dictGet_set_self]

theorem isCodeChunk_of_chunkType_ne (ch : Chunk) (v : MVal)
    (h : dictGet ch.meta (cs "chunk_type") = some v)
    (hne : v ≠ MVal.str (cs "code")) : isCodeChunk ch = false := by
  rw [isCodeChunk, h]
  exact decide_eq_false (by simpa using hne)

theorem isCodeChunk_textMeta (c : List Char) (pm : Dict) (st : List Char)
    (sl : Nat) : isCodeChunk ⟨c, textMeta pm st sl⟩ = false :=
  isCodeChunk_of_chunkType_ne _ _ (chunkType_textMeta pm st sl) (by decide)

theorem isCodeChunk_codeMeta (part : List Char) (pm : Dict) (st : List Char)
    (sl : Nat) (ci : CodeBlock) :
    isCodeChunk ⟨part, codeMeta pm st sl ci⟩ = true := by
  rw [isCodeChunk]
  rw [show (Chunk.mk part (codeMeta pm st sl ci)).meta = codeMeta pm st sl ci
    from rfl]
  rw [chunkType_codeMeta]
  decide

theorem isCodeChunk_codePartial (language : List Char) (sec : Section)
    (pm : Dict) (group : List (List Char)) :
    isCodeChunk (codePartialChunk language sec pm group) = false := by
  refine isCodeChunk_of_chunkType_ne _ (MVal.str (cs "code_partial")) ?_ (by decide)
  have h : (codePartialChunk language sec pm group).meta =
      dictSet (dictSet (dictSet (dictSet (dictSet pm
        (cs "section_title") (.str sec.title))
        (cs "section_level") (.int sec.level))
        (cs "chunk_type") (.str (cs "code_partial")))
        (cs "language") (.str language))
        (cs "has_code") (.boolean true) := rfl
  rw [h, dictGet_set_ne _ _ _ _ (by decide), dictGet_set_ne _ _ _ _ (by decide),
    dictGet_set_self]

theorem isCodeChunk_emitDef (codeLines : List (List Char)) (language : List Char)
    (sec : Section) (pm : Dict) (n : PyNode) (ch : Chunk)
    (h : emitDefChunk codeLines language sec pm n = some ch) :
    isCodeChunk ch = false := by
  cases n with
  | funcDef nm l e cl =>
    rw [emitDefChunk] at h
    cases h
    refine isCodeChunk_of_chunkType_ne _ (MVal.str (cs "code_function")) ?_ (by decide)
    have h : (dictUpd pm
        [(cs "section_title", MVal.str sec.title),
         (cs "section_level", MVal.int sec.level),
         (cs "chunk_type", MVal.str (cs "code_function")),
         (cs "language", MVal.str language),
         (cs "has_code", MVal.boolean true),
         (cs "function_name", MVal.str nm),
         (cs "class_name", MVal.nil)]) =
        dictSet (dictSet (dictSet (dictSet (dictSet (dictSet (dictSet pm
          (cs "section_title") (.str sec.title))
          (cs "section_level") (.int sec.level))
          (cs "chunk_type") (.str (cs "code_function")))
          (cs "language") (.str language))
          (cs "has_code") (.boolean true))
          (cs "function_name") (.str nm))
          (cs "class_name") .nil := rfl
    show dictGet (dictUpd pm
        [(cs "section_title", MVal.str sec.title),
         (cs "section_level", MVal.int sec.level),
         (cs "chunk_type", MVal.str (cs "code_function")),
         (cs "language", MVal.str language),
         (cs "has_code", MVal.boolean true),
         (cs "function_name", MVal.str nm),
         (cs "class_name", MVal.nil)]) (cs "chunk_type") =
      some (MVal.str (cs "code_function"))
    rw [h, dictGet_set_ne _ _ _ _ (by decide), dictGet_set_ne _ _ _ _ (by decide),
      dictGet_set_ne _ _ _ _ (by decide), dictGet_set_ne _ _ _ _ (by decide),
      dictGet_set_self]
  | classDef nm l e cl =>
    rw [emitDefChunk] at h
    cases h
    refine isCodeChunk_of_chunkType_ne _ (MVal.str (cs "code_class")) ?_ (by decide)
    have h : (dictUpd pm
        [(cs "section_title", MVal.str sec.title),
         (cs "section_level", MVal.int sec.level),
         (cs "chunk_type", MVal.str (cs "code_class")),
         (cs "language", MVal.str language),
         (cs "has_code", MVal.boolean true),
         (cs "function_name", MVal.nil),
         (cs "class_name", MVal.str nm)]) =
        dictSet (dictSet (dictSet (dictSet (dictSet (dictSet (dictSet pm
          (cs "section_title") (.str sec.title))
          (cs "section_level") (.int sec.level))
          (cs "chunk_type") (.str (cs "code_class")))
          (cs "language") (.str language))
          (cs "has_code") (.boolean true))
          (cs "function_name") .nil)
          (cs "class_name") (.str nm) := rfl
    show dictGet (dictUpd pm
        [(cs "section_title", MVal.str sec.title),
         (cs "section_level", MVal.int sec.level),
         (cs "chunk_type", MVal.str (cs "code_class")),
         (cs "language", MVal.str language),
         (cs "has_code", MVal.boolean true),
         (cs "function_name", MVal.nil),
         (cs "class_name", MVal.str nm)]) (cs "chunk_type") =
      some (MVal.str (cs "code_class"))
    rw [h, dictGet_set_ne _ _ _ _ (by decide), dictGet_set_ne _ _ _ _ (by decide),
      dictGet_set_ne _ _ _ _ (by decide), dictGet_set_ne _ _ _ _ (by decide),
      dictGet_set_self]
  | other cl =>
    rw [emitDefChunk] at h
    cases h

theorem filter_textFlush (bsplit : List Char → List (List Char)) (sec : Section)
    (pm : Dict) (buffer : List (List Char)) :
    (textFlush bsplit sec pm buffer).filter isCodeChunk = [] := by
  rw [textFlush]
  by_cases hb : buffer = []
  · rw [if_pos hb]; rfl
  · rw [if_neg hb]
    by_cases hts : pyStrip (joinLines buffer) = []
    · rw [if_pos hts]; rfl
    · rw [if_neg hts]
      rw [List.filter_map]
      rw [show isCodeChunk ∘ (fun c => Chunk.mk c (textMeta pm sec.title sec.level)) =
        fun _ => false from funext fun c => isCodeChunk_textMeta c pm sec.title sec.level]
      simp

theorem filter_fallbackGo (language : List Char) (sec : Section) (pm : Dict)
    (lines : List (List Char)) (step : Nat) :
    ∀ fuel i, (fallbackGo language sec pm lines step fuel i).filter isCodeChunk = [] := by
  intro fuel
  induction fuel with
  | zero => intro i; rfl
  | succ f ih =>
    intro i
    rw [fallbackGo]
    by_cases h : i < lines.length
    · rw [if_pos h, List.filter_cons, isCodeChunk_codePartial]
      simpa using ih (i + step)
    · rw [if_neg h]; rfl

theorem filter_lineFallback (cfg : Config) (ci : CodeBlock) (sec : Section)
    (pm : Dict) : (lineFallback cfg ci sec pm).filter isCodeChunk = [] := by
  rw [lineFallback]
  exact filter_fallbackGo _ _ _ _ _ _ _

theorem filter_splitLarge (cfg : Config) (pf : List Char → Option PyModule)
    (ci : CodeBlock) (sec : Section) (pm : Dict) :
    (splitLargeCodeBlock cfg pf ci sec pm).filter isCodeChunk = [] := by
  rw [splitLargeCodeBlock]
  by_cases hc : ci.language = cs "python" ∧ cfg.preserveFunctions
  · rw [if_pos hc]
    cases hp : pf ci.content with
    | none => exact filter_lineFallback cfg ci sec pm
    | some tree =>
      refine List.filter_eq_nil.mpr ?_
      intro ch hch
      rw [List.mem_filterMap] at hch
      obtain ⟨n, _, hn⟩ := hch
      simp [isCodeChunk_emitDef _ _ _ _ _ _ hn]
  · rw [if_neg hc]
    exact filter_lineFallback cfg ci sec pm

theorem filter_chunkSection_no_placeholder (cfg : Config)
    (pf : List Char → Option PyModule) (bsplit : List Char → List (List Char))
    (sec : Section) (cbs : List (List Char × CodeBlock)) (pm : Dict)
    (hocc : occCount (cs "__CODE_BLOCK_") (joinLines sec.content) = 0) :
    (chunkSection cfg pf bsplit sec cbs pm).filter isCodeChunk = [] := by
  rw [chunkSection, reSplitPlaceholder_no_placeholder _ hocc]
  rw [chunkSectionGo]
  have hp : (cs "__CODE_BLOCK_").isPrefixOf (joinLines sec.content) = false :=
    not_isPrefixOf_of_occCount_zero (by decide) hocc
  simp only [hp, Bool.false_eq_true, if_false]
  by_cases hs : pyStrip (joinLines sec.content) = []
  · rw [if_neg (by simp [hs])]
    rw [chunkSectionGo]
    exact filter_textFlush bsplit sec pm []
  · rw [if_pos hs]
    rw [chunkSectionGo]
    exact filter_textFlush bsplit sec pm _

theorem not_prefix_sides (x y : List Char)
    (hocc : occCount (cs "__CODE_BLOCK_") (x ++ (cs "__CODE_BLOCK_0__" ++ y)) = 1) :
    (cs "__CODE_BLOCK_").isPrefixOf x = false ∧
      (cs "__CODE_BLOCK_").isPrefixOf y = false := by
  constructor
  · cases hp : (cs "__CODE_BLOCK_").isPrefixOf x with
    | false => rfl
    | true =>
      exfalso
      have hxne : x ≠ [] := by
        intro h
        rw [h] at hp
        exact absurd hp (by decide)
      have h2 := @occCount_two (cs "__CODE_BLOCK_")
        [] (x ++ (cs "__CODE_BLOCK_0__" ++ y)) x (cs "__CODE_BLOCK_0__" ++ y)
        (x ++ (cs "__CODE_BLOCK_0__" ++ y)) (by simp) rfl
        (isPrefixOf_append_left _ hp) (isPrefixOf_append_left y (by decide))
        (by cases x with
          | nil => exact absurd rfl hxne
          | cons a as => simp)
      omega
  · cases hp : (cs "__CODE_BLOCK_").isPrefixOf y with
    | false => rfl
    | true =>
      exfalso
      have h2 := @occCount_two (cs "__CODE_BLOCK_")
        x (cs "__CODE_BLOCK_0__" ++ y) (x ++ cs "__CODE_BLOCK_0__") y
        (x ++ (cs "__CODE_BLOCK_0__" ++ y)) rfl (by rw [List.append_assoc])
        (isPrefixOf_append_left y (by decide)) hp
        (by
          rw [List.length_append]
          have h16 : (cs "__CODE_BLOCK_0__").length = 16 := by decide
          omega)
      omega

theorem filter_go_k0y (cfg : Config) (pf : List Char → Option PyModule)
    (bsplit : List Char → List (List Char)) (sec : Section) (pm : Dict)
    (b : CodeBlock) (y : List Char) (buffer : List (List Char))
    (hy : (cs "__CODE_BLOCK_").isPrefixOf y = false)
    (hsize : ¬(cfg.codeBlockMaxSize < b.content.length ∧ cfg.preserveCodeBlocks)) :
    (chunkSectionGo cfg pf bsplit sec [(cs "__CODE_BLOCK_0__", b)] pm
        [cs "__CODE_BLOCK_0__", y] buffer).filter isCodeChunk =
      [⟨cs "__CODE_BLOCK_0__", codeMeta pm sec.title sec.level b⟩] := by
  rw [chunkSectionGo]
  show ((textFlush bsplit sec pm buffer ++
      (if cfg.codeBlockMaxSize < b.content.length ∧ cfg.preserveCodeBlocks then
        splitLargeCodeBlock cfg pf b sec pm
      else [⟨cs "__CODE_BLOCK_0__", codeMeta pm sec.title sec.level b⟩]) ++
      chunkSectionGo cfg pf bsplit sec [(cs "__CODE_BLOCK_0__", b)] pm [y] [])).filter
      isCodeChunk = _
  rw [if_neg hsize]
  have htail : (chunkSectionGo cfg pf bsplit sec [(cs "__CODE_BLOCK_0__", b)] pm
      [y] []).filter isCodeChunk = [] := by
    rw [chunkSectionGo]
    simp only [hy, Bool.false_eq_true, if_false]
    by_cases hsy : pyStrip y = []
    · rw [if_neg (by simp [hsy])]
      rw [chunkSectionGo]
      exact filter_textFlush bsplit sec pm []
    · rw [if_pos hsy]
      rw [chunkSectionGo]
      exact filter_textFlush bsplit sec pm _
  rw [List.filter_append, List.filter_append, filter_textFlush, htail]
  simp [List.filter, isCodeChunk_codeMeta]

theorem filter_chunkSection_single (cfg : Config)
    (pf : List Char → Option PyModule) (bsplit : List Char → List (List Char))
    (sec : Section) (pm : Dict) (b : CodeBlock) (x y : List Char)
    (hdec : joinLines sec.content = x ++ (cs "__CODE_BLOCK_0__" ++ y))
    (hocc1 : occCount (cs "__CODE_BLOCK_") (joinLines sec.content) = 1)
    (hsize : ¬(cfg.codeBlockMaxSize < b.content.length ∧ cfg.preserveCodeBlocks)) :
    (chunkSection cfg pf bsplit sec [(cs "__CODE_BLOCK_0__", b)] pm).filter
        isCodeChunk =
      [⟨cs "__CODE_BLOCK_0__", codeMeta pm sec.title sec.level b⟩] := by
  have hocc' : occCount (cs "__CODE_BLOCK_")
      (x ++ (cs "__CODE_BLOCK_0__" ++ y)) = 1 := by rw [← hdec]; exact hocc1
  have hx : (cs "__CODE_BLOCK_").isPrefixOf x = false := (not_prefix_sides x y hocc').1
  have hy : (cs "__CODE_BLOCK_").isPrefixOf y = false := (not_prefix_sides x y hocc').2
  rw [chunkSection, hdec, reSplitPlaceholder_single x y hocc']
  rw [chunkSectionGo]
  simp only [hx, Bool.false_eq_true, if_false]
  by_cases hsx : pyStrip x = []
  · rw [if_neg (by simp [hsx])]
    exact filter_go_k0y cfg pf bsplit sec pm b y [] hy hsize
  · rw [if_pos hsx]
    exact filter_go_k0y cfg pf bsplit sec pm b y _ hy hsize

theorem filter_restore (chunks : List Chunk)
    (cbs : List (List Char × CodeBlock)) :
    (restoreCodeBlocks chunks cbs).filter isCodeChunk =
      restoreCodeBlocks (chunks.filter isCodeChunk) cbs := by
  rw [restoreCodeBlocks, restoreCodeBlocks, List.filter_map]
  congr 1

theorem replaceAllGo_nil (pat rep : List Char) (fuel : Nat) :
    replaceAllGo pat rep fuel [] = [] := by
  cases fuel with
  | zero => rfl
  | succ f =>
    rw [replaceAllGo]
    have hc : ¬(pat ≠ [] ∧ pat.isPrefixOf ([] : List Char) = true) := by
      rintro ⟨hne, hpre⟩
      cases pat with
      | nil => exact hne rfl
      | cons p ps => simp [List.isPrefixOf] at hpre
    rw [if_neg hc]

theorem replaceAllGo_head (pat rep s : List Char) (fuel : Nat)
    (h : pat ≠ [] ∧ pat.isPrefixOf s = true) :
    replaceAllGo pat rep (fuel + 1) s =
      rep ++ replaceAllGo pat rep fuel (s.drop pat.length) := by
  cases s with
  | nil => rw [replaceAllGo, if_pos h]
  | cons ch rest => rw [replaceAllGo, if_pos h]

theorem replaceAll_self (pat rep : List Char) (hp : pat ≠ []) :
    replaceAll pat pat rep = rep := by
  rw [replaceAll,
    replaceAllGo_head pat rep pat pat.length
      ⟨hp, List.isPrefixOf_iff_prefix.mpr (List.prefix_refl pat)⟩,
    List.drop_length, replaceAllGo_nil, List.append_nil]

theorem restoreContent_single_k0 (b : CodeBlock) (hb : b.btype = cs "fenced") :
    restoreContent [(cs "__CODE_BLOCK_0__", b)] (cs "__CODE_BLOCK_0__") =
      fencedOf b := by
  rw [restoreContent]
  simp only [List.foldl_cons, List.foldl_nil]
  rw [if_pos (by decide), hb, if_pos rfl]
  exact replaceAll_self _ _ (by decide)

theorem btype_extractGo (cfg : Config) :
    ∀ fuel ctr s kb, kb ∈ (extractGo cfg fuel ctr s).2 →
      kb.2.btype = cs "fenced" := by
  intro fuel
  induction fuel with
  | zero =>
    intro ctr s kb hkb
    cases s with
    | nil => exact absurd hkb (List.not_mem_nil kb)
    | cons ch rest => exact absurd hkb (List.not_mem_nil kb)
  | succ f ih =>
    intro ctr s kb hkb
    cases s with
    | nil => exact absurd hkb (List.not_mem_nil kb)
    | cons ch rest =>
      rw [extractGo] at hkb
      cases hm : matchFenceAt (ch :: rest) with
      | some pr =>
        obtain ⟨lang, body, after⟩ := pr
        rw [hm] at hkb
        simp only [List.mem_cons] at hkb
        rcases hkb with rfl | hkb
        · rfl
        · exact ih _ _ _ hkb
      | none =>
        rw [hm] at hkb
        exact ih _ _ _ hkb

theorem btype_extract (cfg : Config) (t : List Char) (kb : List Char × CodeBlock)
    (h : kb ∈ (extractCodeBlocks cfg t).2) : kb.2.btype = cs "fenced" :=
  btype_extractGo cfg _ _ _ _ h

theorem filter_flatten_sections_nil (cfg : Config)
    (pf : List Char → Option PyModule) (bsplit : List Char → List (List Char))
    (cbs : List (List Char × CodeBlock)) (pm : Dict) (ss : List Section)
    (h : ∀ s ∈ ss, occCount (cs "__CODE_BLOCK_") (joinLines s.content) = 0) :
    (((ss.map (fun s => chunkSection cfg pf bsplit s cbs pm)).flatten).filter
      isCodeChunk) = [] := by
  induction ss with
  | nil => rfl
  | cons s ss ih =>
    rw [List.map_cons, List.flatten_cons, List.filter_append]
    rw [filter_chunkSection_no_placeholder cfg pf bsplit s cbs pm
      (h s (List.mem_cons_self _ _))]
    rw [ih (fun s' hs' => h s' (List.mem_cons_of_mem _ hs'))]
    rfl

set_option maxHeartbeats 2000000 in
/-- C1 (corrected): for a document from which extraction yields exactly one
fenced block, whose content fits in `code_block_max_size` and whose
placeholder occurs exactly once in the extracted text, `split_text` emits
exactly one chunk with `chunk_type='code'`, and after the restoration pass
that chunk's content is the re-fenced block: the opening fence with the
language tag, the captured body, then a newline and the closing fence.  This
is not the original block byte-for-byte: the `f"..."` rebuild inserts an
extra newline before the closing fence (see the counterexample). -/
theorem claim_C1 (cfg : Config) (pf : List Char → Option PyModule)
    (bsplit : List Char → List (List Char)) (t p a c : List Char)
    (b : CodeBlock) (pm : Dict)
    (hext : extractCodeBlocks cfg t = (p, [(cs "__CODE_BLOCK_0__", b)]))
    (hdecomp : p = a ++ (cs "__CODE_BLOCK_0__" ++ c))
    (hocc : occCount (cs "__CODE_BLOCK_") p = 1)
    (hsize : b.content.length ≤ cfg.codeBlockMaxSize) :
    ((splitText cfg pf bsplit t pm).filter isCodeChunk).map Chunk.content =
      [fencedOf b] := by
  have hb : b.btype = cs "fenced" := by
    have hm : ((cs "__CODE_BLOCK_0__", b) : List Char × CodeBlock) ∈
        (extractCodeBlocks cfg t).2 := by
      rw [hext]
      exact List.mem_cons_self _ _
    exact btype_extract cfg t _ hm
  have hsize' :
      ¬(cfg.codeBlockMaxSize < b.content.length ∧ cfg.preserveCodeBlocks) :=
    fun hcon => absurd hcon.1 (by omega)
  have h0 : splitText cfg pf bsplit t pm =
      restoreCodeBlocks
        (((parseMarkdownStructure cfg (extractCodeBlocks cfg t).1).map
          (fun s => chunkSection cfg pf bsplit s
            (extractCodeBlocks cfg t).2 pm)).flatten)
        (extractCodeBlocks cfg t).2 := rfl
  rw [h0, hext]
  rw [show ((p, [(cs "__CODE_BLOCK_0__", b)])).1 = p from rfl,
      show ((p, [(cs "__CODE_BLOCK_0__", b)])).2 =
        [(cs "__CODE_BLOCK_0__", b)] from rfl]
  have hjoin :
      joinLines ((parseMarkdownStructure cfg p).map Section.content).flatten = p := by
    rw [parseMarkdownStructure_flatten, joinLines_splitLines]
  obtain ⟨gs₁, g, gs₂, x, y, hgroups, hgdec, hgocc, hz₁, hz₂⟩ :=
    locate_placeholder ((parseMarkdownStructure cfg p).map Section.content) a c
      (by
        intro g hg
        obtain ⟨s, hs, rfl⟩ := List.mem_map.mp hg
        exact parseMarkdownStructure_content_ne_nil cfg p s hs)
      (by rw [hjoin]; exact hdecomp)
      (by rw [hjoin]; exact hocc)
  obtain ⟨ss₁, rest, hsecs, hm₁, hm₂⟩ := List.append_eq_map_iff.mp hgroups.symm
  obtain ⟨s₀, ss₂, hrest, hs₀, hm₃⟩ := List.map_eq_cons_iff.mp hm₂
  subst hrest
  rw [filter_restore, hsecs]
  rw [List.map_append, List.map_cons, List.flatten_append, List.flatten_cons]
  rw [List.filter_append, List.filter_append]
  rw [filter_chunkSection_single cfg pf bsplit s₀ pm b x y
    (by rw [hs₀]; exact hgdec) (by rw [hs₀]; exact hgocc) hsize']
  rw [filter_flatten_sections_nil cfg pf bsplit _ pm ss₁
    (fun s hs => hz₁ s.content (hm₁ ▸ List.mem_map_of_mem Section.content hs))]
  rw [filter_flatten_sections_nil cfg pf bsplit _ pm ss₂
    (fun s hs => hz₂ s.content (hm₃ ▸ List.mem_map_of_mem Section.content hs))]
  simp only [List.nil_append, List.append_nil]
  rw [restoreCodeBlocks, List.map_cons, List.map_nil, List.map_cons, List.map_nil]
  rw [show (restoreOne [(cs "__CODE_BLOCK_0__", b)]
      ⟨cs "__CODE_BLOCK_0__", codeMeta pm s₀.title s₀.level b⟩).content =
    restoreContent [(cs "__CODE_BLOCK_0__", b)] (cs "__CODE_BLOCK_0__") from rfl]
  rw [restoreContent_single_k0 b hb]

/-- C1 counterexample to the byte-for-byte clause: for the document that is
exactly the fenced block with body lacking a final blank line, the single
code chunk's restored content carries an extra newline before the closing
fence, so it differs from the original fenced block. -/
theorem claim_C1_counterexample :
    ((splitText defaultConfig (fun _ => none) (rctsModel defaultConfig)
        (cs "```python\ndef f():\n    return 1\n```") []).filter isCodeChunk).map
        Chunk.content =
      [cs "```python\ndef f():\n    return 1\n\n```"] ∧
    cs "```python\ndef f():\n    return 1\n\n```" ≠
      cs "```python\ndef f():\n    return 1\n```" := by
  constructor
  · decide
  · decide

/-- C1 witness: the corrected theorem applied at the concrete one-block
document, each hypothesis evaluated on the concrete input. -/
theorem claim_C1_witness :
    extractCodeBlocks defaultConfig (cs "```python\ndef f():\n    return 1\n```") =
      (cs "__CODE_BLOCK_0__",
        [(cs "__CODE_BLOCK_0__",
          mkCodeBlock defaultConfig (cs "python") (cs "def f():\n    return 1\n"))]) ∧
    ((splitText defaultConfig (fun _ => none) (rctsModel defaultConfig)
        (cs "```python\ndef f():\n    return 1\n```") []).filter isCodeChunk).map
        Chunk.content =
      [fencedOf (mkCodeBlock defaultConfig (cs "python")
        (cs "def f():\n    return 1\n"))] :=
  ⟨by decide,
   claim_C1 defaultConfig (fun _ => none) (rctsModel defaultConfig)
     (cs "```python\ndef f():\n    return 1\n```") (cs "__CODE_BLOCK_0__") [] []
     (mkCodeBlock defaultConfig (cs "python") (cs "def f():\n    return 1\n")) []
     (by decide) (by decide) (by decide) (by decide)⟩

end Chunking
